import Mathlib

/-!
# WMS terminal: durable commit queue and cache-backed gateway

A shallow embedding of `internal/api/api.go`, `internal/queue/queue.go` and
of `fuzzyMatch` in `internal/ui/commit.go`.

* Go values: a slice is `Slice α` (the nil slice is kept apart from the empty
  one, because `encoding/json` prints them differently), a Go `int` is an `Int`,
  a Go `string` is a `String`.
* The outside world is explicit.  `World` holds the three files the program
  owns, the HTTP exchanges made so far and two counters; `Env` holds the
  answers of the network, of the connectivity probe and of the clock, one per
  call.  Every operation maps a `World` to a result and a new `World`.
* The standard-library functions the program calls (`encoding/json`,
  `http.NewRequest`) are the fields of `Lib`.  The theorems on the control
  flow hold for every `Lib`; `goLib`, further down, is an executable instance
  that prints and parses JSON text, on which the statements about the text of
  the files are settled.
* An operation returns `none` when the Go code dereferences the nil request
  that `http.NewRequest` returns for a URL it cannot parse (the error is
  discarded in `SendCommit`, `FetchItems` and `FetchLocations`; `Check` tests
  it).
* Output to stdout and to the logger is not modelled.
-/

namespace WMS

/-! ## Go values -/

/-- A Go slice value: `nil` is the nil slice, `of xs` a non-nil slice. -/
inductive Slice (α : Type) where
  | nil : Slice α
  | of (elems : List α) : Slice α
  deriving DecidableEq, Repr

namespace Slice

/-- The elements of a slice, in order. -/
def toList {α : Type} : Slice α → List α
  | nil => []
  | of xs => xs

/-- Go `len(s)`. -/
def len {α : Type} (s : Slice α) : Nat := s.toList.length

/-- Go `append(s, x)`: the result is never nil. -/
def append {α : Type} (s : Slice α) (x : α) : Slice α := of (s.toList ++ [x])

/-- The slice a loop builds by appending `xs` one by one to a nil slice. -/
def collect {α : Type} (xs : List α) : Slice α :=
  match xs with
  | [] => nil
  | _ :: _ => of xs

/-- The slice obtained by appending `xs` one by one to `s`. -/
def extend {α : Type} (s : Slice α) (xs : List α) : Slice α :=
  match xs with
  | [] => s
  | _ :: _ => of (s.toList ++ xs)

end Slice

/-- Go `error` values the program meets. -/
inductive Error where
  | notExist
  | permission
  | transport (msg : String)
  | decode (msg : String)
  | status (code : Int)
  deriving DecidableEq, Repr

/-- Type `queue.Commit`. -/
structure Commit where
  DeviceID : String
  Location : String
  Delta : Int
  ItemID : Int
  deriving DecidableEq, Repr

/-- Type `api.CommitPayload`. -/
structure CommitPayload where
  DeviceID : String
  Location : String
  Delta : Int
  ItemID : Int
  deriving DecidableEq, Repr

/-- Type `api.Item`. -/
structure Item where
  ID : Int
  Name : String
  deriving DecidableEq, Repr

/-- Type `api.Location`. -/
structure Location where
  LocationName : String
  Items : Slice Int
  deriving DecidableEq, Repr

/-- Type `api.CachedItems`. -/
structure CachedItems where
  Timestamp : Int
  Items : Slice Item
  deriving DecidableEq, Repr

/-- Type `api.CachedLocations`. -/
structure CachedLocations where
  Timestamp : Int
  Locations : Slice Location
  deriving DecidableEq, Repr

/-- A decoded JSON value, as `encoding/json` stores one in an `interface{}`.
A number keeps its literal text (Go converts it to a `float64`). -/
inductive JVal where
  | null : JVal
  | bool (b : Bool) : JVal
  | num (lit : String) : JVal
  | str (s : String) : JVal
  | arr (elems : List JVal) : JVal
  | obj (members : List (String × JVal)) : JVal

/-- Type `map[string]interface{}`: `none` is the nil map. -/
abbrev ResultMap := Option (List (String × JVal))

/-- Type `api.Client`; the `*http.Client` field is the `Env`. -/
structure Client where
  BaseURL : String
  APIKey : String
  BasePath : String
  deriving DecidableEq, Repr

/-- Type `queue.Queue`; the lock and the stop channel are not modelled. -/
structure Queue where
  api : Client
  filePath : String
  deriving DecidableEq, Repr

/-! ## The standard library -/

/-- The standard-library functions the program calls.  A marshal function
returns Go's `(data, err)`; an unmarshal function returns the value left in the
(initially zero) target together with `err`. -/
structure Lib where
  validURL : String → Bool
  marshalPayload : CommitPayload → String × Option Error
  unmarshalResult : String → ResultMap × Option Error
  unmarshalItems : String → Slice Item × Option Error
  unmarshalLocations : String → Slice Location × Option Error
  marshalIndentCachedItems : CachedItems → String × Option Error
  unmarshalCachedItems : String → CachedItems × Option Error
  marshalIndentCachedLocations : CachedLocations → String × Option Error
  unmarshalCachedLocations : String → CachedLocations × Option Error
  marshalIndentQueue : Slice Commit → String × Option Error
  unmarshalQueue : String → Slice Commit × Option Error

/-! ## The outside world -/

/-- A file of the local storage area. -/
structure File where
  content : Option String
  readable : Bool
  writable : Bool
  deriving DecidableEq, Repr

/-- Go `os.Stat` followed by `os.IsNotExist(err)`. -/
def File.isNotExist (f : File) : Bool := f.content.isNone

/-- Go `os.ReadFile`. -/
def File.read (f : File) : Except Error String :=
  match f.content with
  | none => .error .notExist
  | some data => if f.readable then .ok data else .error .permission

/-- Go `os.WriteFile`: the whole content is replaced, or the file is left as
it was when it cannot be opened for writing. -/
def File.write (f : File) (data : String) : Option Error × File :=
  if f.writable then (none, { f with content := some data }) else (some .permission, f)

/-- An HTTP request built by `http.NewRequest` and the `Header.Set` calls. -/
structure Request where
  method : String
  url : String
  header : List (String × String)
  body : Option String
  deriving DecidableEq, Repr

/-- What `c.Client.Do(req)` and `io.ReadAll(resp.Body)` give. -/
inductive Outcome where
  | transportError (err : Error)
  | response (status : Int) (body : String)
  deriving DecidableEq, Repr

/-- The answers of the environment: `respond n req` is the outcome of the
exchange made after `n` earlier ones, `dial n` the result of the probe made
after `n` earlier ones (`none`: connected), `now n` the clock reading after
`n` earlier ones. -/
structure Env where
  respond : Nat → Request → Outcome
  dial : Nat → Option Error
  now : Nat → Int

/-- The state the program acts on. -/
structure World where
  queueFile : File
  itemsCache : File
  locationsCache : File
  requests : List Request
  dials : Nat
  clockReads : Nat
  deriving DecidableEq, Repr

/-- Go `c.Client.Do(req)` with the body read. -/
def Do (E : Env) (req : Request) (w : World) : Outcome × World :=
  (E.respond w.requests.length req, { w with requests := w.requests ++ [req] })

/-- Go `time.Now().Unix()`. -/
def nowUnix (E : Env) (w : World) : Int × World :=
  (E.now w.clockReads, { w with clockReads := w.clockReads + 1 })

/-- Go `http.NewRequest`: `none` is the nil request returned with an error. -/
def newRequest (L : Lib) (method url : String) (body : Option String) : Option Request :=
  if L.validURL url then some { method := method, url := url, header := [], body := body }
  else none

/-- Go `req.Header.Set(key, value)`. -/
def Request.set (req : Request) (key value : String) : Request :=
  { req with header := (req.header.filter (fun kv => kv.1 != key)) ++ [(key, value)] }

/-! ## Package api -/

/-- Source: `(*Client).setAuthHeaders`. -/
def setAuthHeaders (c : Client) (req : Request) : Request :=
  (req.set "Authorization" ("Bearer " ++ c.APIKey)).set "apikey" c.APIKey

/-- Source: `(*Client).saveItemsCache`. -/
def saveItemsCache (L : Lib) (E : Env) (_c : Client) (items : Slice Item) (w : World) :
    Option Error × World :=
  let (ts, w1) := nowUnix E w
  let cached : CachedItems := { Timestamp := ts, Items := items }
  match L.marshalIndentCachedItems cached with
  | (_, some err) => (some err, w1)
  | (data, none) =>
    let (err, f) := w1.itemsCache.write data
    (err, { w1 with itemsCache := f })

/-- Source: `(*Client).loadItemsCache`. -/
def loadItemsCache (L : Lib) (_c : Client) (w : World) : Slice Item × Option Error :=
  match w.itemsCache.read with
  | .error err => (.nil, some err)
  | .ok data =>
    match L.unmarshalCachedItems data with
    | (_, some err) => (.nil, some err)
    | (cached, none) => (cached.Items, none)

/-- Source: `(*Client).saveLocationsCache`. -/
def saveLocationsCache (L : Lib) (E : Env) (_c : Client) (locations : Slice Location)
    (w : World) : Option Error × World :=
  let (ts, w1) := nowUnix E w
  let cached : CachedLocations := { Timestamp := ts, Locations := locations }
  match L.marshalIndentCachedLocations cached with
  | (_, some err) => (some err, w1)
  | (data, none) =>
    let (err, f) := w1.locationsCache.write data
    (err, { w1 with locationsCache := f })

/-- Source: `(*Client).loadLocationsCache`. -/
def loadLocationsCache (L : Lib) (_c : Client) (w : World) :
    Slice Location × Option Error :=
  match w.locationsCache.read with
  | .error err => (.nil, some err)
  | .ok data =>
    match L.unmarshalCachedLocations data with
    | (_, some err) => (.nil, some err)
    | (cached, none) => (cached.Locations, none)

/-- The request `SendCommit` builds, `none` when `http.NewRequest` fails. -/
def commitRequest (L : Lib) (c : Client) (deviceID location : String) (delta itemID : Int) :
    Option Request :=
  let payload : CommitPayload :=
    { DeviceID := deviceID, Location := location, Delta := delta, ItemID := itemID }
  let data := (L.marshalPayload payload).1
  match newRequest L "POST" (c.BaseURL ++ "/rest/v1/commits") (some data) with
  | none => none
  | some req =>
    some (((setAuthHeaders c req).set "Content-Type" "application/json").set
      "Prefer" "return=representation")

/-- Source: `(*Client).SendCommit`.  The error of `http.NewRequest` is
discarded: for a URL that cannot be parsed the request is nil and
`setAuthHeaders` dereferences it, which is the result `none`. -/
def SendCommit (L : Lib) (E : Env) (c : Client) (deviceID location : String)
    (delta itemID : Int) (w : World) : Option ((ResultMap × Option Error) × World) :=
  match commitRequest L c deviceID location delta itemID with
  | none => none
  | some req =>
    match Do E req w with
    | (.transportError err, w1) => some ((none, some err), w1)
    | (.response status body, w1) =>
      let result := (L.unmarshalResult body).1
      if status ≥ 400 then some ((none, some (.status status)), w1)
      else some ((result, none), w1)

/-- The request `FetchItems` builds. -/
def itemsRequest (L : Lib) (c : Client) : Option Request :=
  match newRequest L "GET" (c.BaseURL ++ "/rest/v1/items?select=*") none with
  | none => none
  | some req => some (setAuthHeaders c req)

/-- Source: `(*Client).FetchItems`; `none` as for `SendCommit`. -/
def FetchItems (L : Lib) (E : Env) (c : Client) (w : World) :
    Option ((Slice Item × Option Error) × World) :=
  match itemsRequest L c with
  | none => none
  | some req =>
    match Do E req w with
    | (.transportError _, w1) => some (loadItemsCache L c w1, w1)
    | (.response status body, w1) =>
      match L.unmarshalItems body with
      | (_, some _) => some (loadItemsCache L c w1, w1)
      | (items, none) =>
        if status ≥ 400 then some (loadItemsCache L c w1, w1)
        else
          let w2 := if items.len > 0 then (saveItemsCache L E c items w1).2 else w1
          some ((items, none), w2)

/-- The request `FetchLocations` builds. -/
def locationsRequest (L : Lib) (c : Client) : Option Request :=
  match newRequest L "GET" (c.BaseURL ++ "/rest/v1/locations?select=*") none with
  | none => none
  | some req => some (setAuthHeaders c req)

/-- Source: `(*Client).FetchLocations`; `none` as for `SendCommit`. -/
def FetchLocations (L : Lib) (E : Env) (c : Client) (w : World) :
    Option ((Slice Location × Option Error) × World) :=
  match locationsRequest L c with
  | none => none
  | some req =>
    match Do E req w with
    | (.transportError _, w1) => some (loadLocationsCache L c w1, w1)
    | (.response status body, w1) =>
      match L.unmarshalLocations body with
      | (_, some _) => some (loadLocationsCache L c w1, w1)
      | (locations, none) =>
        if status ≥ 400 then some (loadLocationsCache L c w1, w1)
        else
          let w2 :=
            if locations.len > 0 then (saveLocationsCache L E c locations w1).2 else w1
          some ((locations, none), w2)

/-- The request `Check` builds, `none` when `http.NewRequest` fails. -/
def checkRequest (L : Lib) (c : Client) : Option Request :=
  match newRequest L "GET" (c.BaseURL ++ "/rest/v1/items?select=*&limit=1") none with
  | none => none
  | some req => some (setAuthHeaders c req)

/-- Source: `(*Client).Check`.  The error of `http.NewRequest` is tested here,
and the body of the response is not read. -/
def Check (L : Lib) (E : Env) (c : Client) (w : World) : Bool × World :=
  match newRequest L "GET" (c.BaseURL ++ "/rest/v1/items?select=*&limit=1") none with
  | none => (false, w)
  | some req =>
    match Do E (setAuthHeaders c req) w with
    | (.transportError _, w1) => (false, w1)
    | (.response status _, w1) => (decide (status ≥ 200 ∧ status < 300), w1)

/-! ## Package queue -/

/-- Source: `(*Queue).loadQueue`. -/
def loadQueue (L : Lib) (_q : Queue) (w : World) : Slice Commit :=
  if w.queueFile.isNotExist then .of []
  else
    match w.queueFile.read with
    | .error _ => .of []
    | .ok data => (L.unmarshalQueue data).1

/-- Source: `(*Queue).saveQueue`. -/
def saveQueue (L : Lib) (_q : Queue) (commits : Slice Commit) (w : World) : World :=
  let data := (L.marshalIndentQueue commits).1
  { w with queueFile := (w.queueFile.write data).2 }

/-- Source: `(*Queue).SubmitCommit`. -/
def SubmitCommit (L : Lib) (q : Queue) (deviceID location : String) (delta itemID : Int)
    (w : World) : World :=
  let commit : Commit :=
    { DeviceID := deviceID, Location := location, Delta := delta, ItemID := itemID }
  let queue := loadQueue L q w
  let queue := queue.append commit
  saveQueue L q queue w

/-- Source: `(*Queue).internetAvailable`. -/
def internetAvailable (E : Env) (_q : Queue) (w : World) : Bool × World :=
  match E.dial w.dials with
  | some _ => (false, { w with dials := w.dials + 1 })
  | none => (true, { w with dials := w.dials + 1 })

/-- The `for _, commit := range queue` loop of `processQueue`; `newQueue` is
the slice built so far. -/
def drain (L : Lib) (E : Env) (q : Queue) :
    List Commit → Slice Commit → World → Option (Slice Commit × World)
  | [], newQueue, w => some (newQueue, w)
  | commit :: rest, newQueue, w =>
    match SendCommit L E q.api commit.DeviceID commit.Location commit.Delta commit.ItemID w with
    | none => none
    | some ((_, some _), w1) => drain L E q rest (newQueue.append commit) w1
    | some ((_, none), w1) => drain L E q rest newQueue w1

/-- Source: `(*Queue).processQueue`; `none` when a `SendCommit` of the loop
does not return. -/
def processQueue (L : Lib) (E : Env) (q : Queue) (w : World) : Option World :=
  let queue := loadQueue L q w
  if queue.len = 0 then some w
  else
    match drain L E q queue.toList .nil w with
    | none => none
    | some (newQueue, w1) => some (saveQueue L q newQueue w1)

/-- The `case <-ticker.C:` branch of `worker`. -/
def tick (L : Lib) (E : Env) (q : Queue) (w : World) : Option World :=
  match internetAvailable E q w with
  | (true, w1) => processQueue L E q w1
  | (false, w1) => some w1

/-- What the `select` of `worker` receives. -/
inductive Event where
  | stop
  | ticker
  deriving DecidableEq, Repr

/-- Source: `(*Queue).worker`, run over the events it receives; when the
events are used up the goroutine is left blocked in `select`. -/
def worker (L : Lib) (E : Env) (q : Queue) : List Event → World → Option World
  | [], w => some w
  | .stop :: _, w => some w
  | .ticker :: evs, w =>
    match tick L E q w with
    | none => none
    | some w1 => worker L E q evs w1


/-! ## Package ui

A Go string is a sequence of bytes, the UTF-8 encoding of its characters:
`len(s)` and `s[i]` count and give bytes, `range s` gives characters. -/

/-- The UTF-8 bytes of a character. -/
def utf8 (c : Char) : List Nat :=
  if c.toNat < 128 then [c.toNat]
  else if c.toNat < 2048 then [192 + c.toNat / 64, 128 + c.toNat % 64]
  else if c.toNat < 65536 then
    [224 + c.toNat / 4096, 128 + c.toNat / 64 % 64, 128 + c.toNat % 64]
  else
    [240 + c.toNat / 262144, 128 + c.toNat / 4096 % 64, 128 + c.toNat / 64 % 64,
      128 + c.toNat % 64]

/-- The bytes of a Go string with the given characters. -/
def bytesOf (s : List Char) : List Nat := s.flatMap utf8

/-- Go `unicode.IsSpace`. -/
def isSpace (c : Char) : Bool :=
  [9, 10, 11, 12, 13, 32, 133, 160, 5760, 8232, 8233, 8239, 8287, 12288].contains c.toNat
    || (8192 ≤ c.toNat && c.toNat ≤ 8202)

/-- Go `strings.TrimSpace`, on the characters of the string. -/
def TrimSpace (s : List Char) : List Char :=
  ((s.dropWhile isSpace).reverse.dropWhile isSpace).reverse

/-- Go `strings.Contains(s, sub)`, on the bytes of the two strings. -/
def Contains (s sub : List Nat) : Bool :=
  match s with
  | [] => sub.isPrefixOf []
  | b :: rest => sub.isPrefixOf (b :: rest) || Contains rest sub

/-- One turn of the loop of `fuzzyMatch`: `query` is the byte sequence of the
query, `queryIdx` the index reached, `char` the character of the name. -/
def fuzzyStep (query : List Nat) (queryIdx : Nat) (char : Char) : Nat :=
  if queryIdx < query.length ∧ query[queryIdx]? = some char.toNat then queryIdx + 1
  else queryIdx

/-- Source: `(*CommitUI).fuzzyMatch`; `toLower` is Go's `unicode.ToLower`, which
`strings.ToLower` applies to every character. -/
def fuzzyMatch (toLower : Char → Char) (query name : String) : Bool :=
  let query : List Char := (TrimSpace query.data).map toLower
  let name : List Char := name.data.map toLower
  if query = [] then true
  else if Contains (bytesOf name) (bytesOf query) then true
  else (name.foldl (fuzzyStep (bytesOf query)) 0) == (bytesOf query).length

/-- Lower-casing of the ASCII letters; every other character is left as it is. -/
def asciiToLower (c : Char) : Char :=
  if 65 ≤ c.toNat ∧ c.toNat ≤ 90 then Char.ofNat (c.toNat + 32) else c

/-! ## An executable instance of `Lib`

JSON text is printed the way `json.MarshalIndent(v, "", "  ")` and
`json.Marshal` print values of the program's types, and parsed the way
`json.Unmarshal` reads it: the whole text is checked against the JSON grammar
first, then decoded into the target, where `null` leaves a field as it is, a
key selects a field without regard to letter case, unknown keys are skipped,
and a value of the wrong kind leaves its field as it is and yields an error
while decoding goes on. -/

namespace GoJson

/-- One lower-case hexadecimal digit. -/
def hexDigit (n : Nat) : Char := Char.ofNat (if n < 10 then 48 + n else 87 + n)

/-- Four hexadecimal digits of a code unit. -/
def hex4 (n : Nat) : List Char :=
  [hexDigit (n / 4096 % 16), hexDigit (n / 256 % 16), hexDigit (n / 16 % 16), hexDigit (n % 16)]

/-- How the encoder writes one character inside a string (HTML-safe mode). -/
def escapeChar (c : Char) : List Char :=
  if c = '"' then ['\\', '"']
  else if c = '\\' then ['\\', '\\']
  else if c = '\n' then ['\\', 'n']
  else if c = '\r' then ['\\', 'r']
  else if c = '\t' then ['\\', 't']
  else if c.toNat = 8 then ['\\', 'b']
  else if c.toNat = 12 then ['\\', 'f']
  else if c.toNat < 32 ∨ c = '<' ∨ c = '>' ∨ c = '&' ∨ c.toNat = 8232 ∨ c.toNat = 8233 then
    '\\' :: 'u' :: hex4 c.toNat
  else [c]

/-- A quoted JSON string. -/
def quote (s : String) : List Char := '"' :: (s.data.flatMap escapeChar ++ ['"'])

/-- Decimal digits of `n`, most significant first, prepended to `acc`. -/
def natDigitsAux : Nat → Nat → List Char → List Char
  | 0, _, acc => acc
  | fuel + 1, n, acc =>
    let acc1 := Char.ofNat (48 + n % 10) :: acc
    if n < 10 then acc1 else natDigitsAux fuel (n / 10) acc1

/-- Decimal digits of a natural number. -/
def natDigits (n : Nat) : List Char := natDigitsAux (n + 1) n []

/-- A JSON integer. -/
def showInt (i : Int) : List Char :=
  match i with
  | Int.ofNat n => natDigits n
  | Int.negSucc n => '-' :: natDigits (n + 1)

/-- The line break and indentation written at depth `d`. -/
def newline (d : Nat) : List Char := '\n' :: List.replicate (2 * d) ' '

/-- Items separated by a comma and a line break at depth `d`. -/
def joinLines (d : Nat) : List (List Char) → List Char
  | [] => []
  | [x] => x
  | x :: y :: rest => x ++ ',' :: (newline d ++ joinLines d (y :: rest))

/-- An indented JSON object with the given members, opened at depth `d`. -/
def showObject (d : Nat) (members : List (String × List Char)) : List Char :=
  match members with
  | [] => ['{', '}']
  | _ :: _ =>
    '{' :: (newline (d + 1)
      ++ joinLines (d + 1) (members.map (fun kv => quote kv.1 ++ ':' :: ' ' :: kv.2))
      ++ newline d ++ ['}'])

/-- An indented JSON array of already printed elements; `nil` prints `null`. -/
def showArray (d : Nat) (elems : Slice (List Char)) : List Char :=
  match elems with
  | .nil => ['n', 'u', 'l', 'l']
  | .of [] => ['[', ']']
  | .of (x :: xs) => '[' :: (newline (d + 1) ++ joinLines (d + 1) (x :: xs) ++ newline d ++ [']'])

/-- Map over a slice, nil staying nil. -/
def mapSlice {α β : Type} (f : α → β) : Slice α → Slice β
  | .nil => .nil
  | .of xs => .of (xs.map f)

/-- A commit printed at depth `d`. -/
def showCommit (d : Nat) (c : Commit) : List Char :=
  showObject d [("device_id", quote c.DeviceID), ("location", quote c.Location),
    ("delta", showInt c.Delta), ("item_id", showInt c.ItemID)]

/-- An item printed at depth `d`. -/
def showItem (d : Nat) (i : Item) : List Char :=
  showObject d [("id", showInt i.ID), ("name", quote i.Name)]

/-- A location printed at depth `d`. -/
def showLocation (d : Nat) (l : Location) : List Char :=
  showObject d [("location", quote l.LocationName),
    ("items", showArray (d + 1) (mapSlice showInt l.Items))]

/-- Text of `json.MarshalIndent(commits, "", "  ")`. -/
def showQueue (commits : Slice Commit) : List Char :=
  showArray 0 (mapSlice (showCommit 1) commits)

/-- Text of `json.MarshalIndent(cached, "", "  ")` for the items envelope. -/
def showCachedItems (e : CachedItems) : List Char :=
  showObject 0 [("timestamp", showInt e.Timestamp),
    ("items", showArray 1 (mapSlice (showItem 2) e.Items))]

/-- Text of `json.MarshalIndent(cached, "", "  ")` for the locations envelope. -/
def showCachedLocations (e : CachedLocations) : List Char :=
  showObject 0 [("timestamp", showInt e.Timestamp),
    ("locations", showArray 1 (mapSlice (showLocation 2) e.Locations))]

/-- Text of `json.Marshal(payload)`. -/
def showPayload (p : CommitPayload) : List Char :=
  '{' :: (quote "device_id" ++ ':' :: (quote p.DeviceID ++ ',' :: (quote "location" ++ ':' ::
    (quote p.Location ++ ',' :: (quote "delta" ++ ':' :: (showInt p.Delta ++ ',' ::
    (quote "item_id" ++ ':' :: (showInt p.ItemID ++ ['}']))))))))

/-! ### Reading JSON text -/

/-- JSON white space. -/
def isWs (c : Char) : Bool := c = ' ' || c = '\t' || c = '\n' || c = '\r'

/-- Drop leading white space. -/
def skipWs : List Char → List Char
  | [] => []
  | c :: cs => if isWs c then skipWs cs else c :: cs

/-- Value of a hexadecimal digit. -/
def hexVal (c : Char) : Option Nat :=
  let n := c.toNat
  if 48 ≤ n ∧ n ≤ 57 then some (n - 48)
  else if 97 ≤ n ∧ n ≤ 102 then some (n - 87)
  else if 65 ≤ n ∧ n ≤ 70 then some (n - 55)
  else none

/-- Value of four hexadecimal digits. -/
def hex4Val (a b c d : Char) : Option Nat :=
  match hexVal a, hexVal b, hexVal c, hexVal d with
  | some x, some y, some z, some w => some (x * 4096 + y * 256 + z * 16 + w)
  | _, _, _, _ => none

/-- The character written by the escape that follows a backslash, and the
text after the escape.  A surrogate half that is not part of a pair reads as
U+FFFD. -/
def unescape (cs : List Char) : Option (Char × List Char) :=
  match cs with
  | [] => none
  | e :: rest1 =>
    if e = 'u' then
      match rest1 with
      | h1 :: h2 :: h3 :: h4 :: rest2 =>
        match hex4Val h1 h2 h3 h4 with
        | none => none
        | some n =>
          if 55296 ≤ n ∧ n < 56320 then
            match rest2 with
            | b :: u :: l1 :: l2 :: l3 :: l4 :: rest3 =>
              match hex4Val l1 l2 l3 l4 with
              | some m =>
                if b = '\\' ∧ u = 'u' ∧ 56320 ≤ m ∧ m < 57344 then
                  some (Char.ofNat (65536 + (n - 55296) * 1024 + (m - 56320)), rest3)
                else some (Char.ofNat 65533, rest2)
              | none => some (Char.ofNat 65533, rest2)
            | _ => some (Char.ofNat 65533, rest2)
          else if 56320 ≤ n ∧ n < 57344 then some (Char.ofNat 65533, rest2)
          else some (Char.ofNat n, rest2)
      | _ => none
    else if e = '"' then some ('"', rest1)
    else if e = '\\' then some ('\\', rest1)
    else if e = '/' then some ('/', rest1)
    else if e = 'b' then some (Char.ofNat 8, rest1)
    else if e = 'f' then some (Char.ofNat 12, rest1)
    else if e = 'n' then some ('\n', rest1)
    else if e = 'r' then some ('\r', rest1)
    else if e = 't' then some ('\t', rest1)
    else none

/-- The rest of a string literal after its opening quote: the decoded
characters and the text after the closing quote. -/
def parseStrAux : Nat → List Char → Option (List Char × List Char)
  | 0, _ => none
  | _ + 1, [] => none
  | fuel + 1, c :: rest =>
    if c = '"' then some ([], rest)
    else if c = '\\' then
      match unescape rest with
      | none => none
      | some (x, rest1) => (parseStrAux fuel rest1).map (fun r => (x :: r.1, r.2))
    else if c.toNat < 32 then none
    else (parseStrAux fuel rest).map (fun r => (c :: r.1, r.2))

/-- A string literal after its opening quote. -/
def parseStr (cs : List Char) : Option (List Char × List Char) :=
  parseStrAux (cs.length + 1) cs

/-- Whether a character is a decimal digit. -/
def isDigit (c : Char) : Bool := 48 ≤ c.toNat && c.toNat ≤ 57

/-- Split off the leading decimal digits. -/
def spanDigits : List Char → List Char × List Char
  | [] => ([], [])
  | c :: cs => if isDigit c then ((spanDigits cs).1.cons c, (spanDigits cs).2) else ([], c :: cs)

/-- The integer part of a number: a single zero, or digits not starting with zero. -/
def parseIntPart (cs : List Char) : Option (List Char × List Char) :=
  match cs with
  | [] => none
  | c :: rest =>
    if c = '0' then some (['0'], rest)
    else if isDigit c then some (c :: (spanDigits rest).1, (spanDigits rest).2)
    else none

/-- An optional fraction. -/
def parseFrac (cs : List Char) : Option (List Char × List Char) :=
  match cs with
  | c :: rest =>
    if c = '.' then
      match spanDigits rest with
      | ([], _) => none
      | (ds, rest1) => some ('.' :: ds, rest1)
    else some ([], cs)
  | [] => some ([], cs)

/-- An optional exponent. -/
def parseExp (cs : List Char) : Option (List Char × List Char) :=
  match cs with
  | c :: rest =>
    if c = 'e' ∨ c = 'E' then
      let signed : List Char × List Char :=
        match rest with
        | s :: rest1 => if s = '+' ∨ s = '-' then ([s], rest1) else ([], rest)
        | [] => ([], rest)
      match spanDigits signed.2 with
      | ([], _) => none
      | (ds, rest2) => some (c :: (signed.1 ++ ds), rest2)
    else some ([], cs)
  | [] => some ([], cs)

/-- A number literal and the text after it. -/
def parseNum (cs : List Char) : Option (List Char × List Char) :=
  let signed : List Char × List Char :=
    match cs with
    | c :: rest => if c = '-' then (['-'], rest) else ([], cs)
    | [] => ([], cs)
  match parseIntPart signed.2 with
  | none => none
  | some (ip, r1) =>
    match parseFrac r1 with
    | none => none
    | some (fp, r2) =>
      match parseExp r2 with
      | none => none
      | some (ep, r3) => some (signed.1 ++ ip ++ fp ++ ep, r3)

mutual

/-- One JSON value, leading white space allowed. -/
def parseValue : Nat → List Char → Option (JVal × List Char)
  | 0, _ => none
  | fuel + 1, cs =>
    match skipWs cs with
    | [] => none
    | c :: rest =>
      if c = '"' then (parseStr rest).map (fun r => (JVal.str (String.mk r.1), r.2))
      else if c = '[' then
        match skipWs rest with
        | [] => none
        | c1 :: rest1 =>
          if c1 = ']' then some (JVal.arr [], rest1)
          else (parseElems fuel (c1 :: rest1)).map (fun r => (JVal.arr r.1, r.2))
      else if c = '{' then
        match skipWs rest with
        | [] => none
        | c1 :: rest1 =>
          if c1 = '}' then some (JVal.obj [], rest1)
          else (parseMembers fuel (c1 :: rest1)).map (fun r => (JVal.obj r.1, r.2))
      else if c = 'n' then
        match rest with
        | 'u' :: 'l' :: 'l' :: rest1 => some (JVal.null, rest1)
        | _ => none
      else if c = 't' then
        match rest with
        | 'r' :: 'u' :: 'e' :: rest1 => some (JVal.bool true, rest1)
        | _ => none
      else if c = 'f' then
        match rest with
        | 'a' :: 'l' :: 's' :: 'e' :: rest1 => some (JVal.bool false, rest1)
        | _ => none
      else (parseNum (c :: rest)).map (fun r => (JVal.num (String.mk r.1), r.2))

/-- The elements of an array after its opening bracket, up to the closing one. -/
def parseElems : Nat → List Char → Option (List JVal × List Char)
  | 0, _ => none
  | fuel + 1, cs =>
    match parseValue fuel cs with
    | none => none
    | some (v, rest) =>
      match skipWs rest with
      | [] => none
      | c :: rest1 =>
        if c = ',' then (parseElems fuel rest1).map (fun r => (v :: r.1, r.2))
        else if c = ']' then some ([v], rest1)
        else none

/-- The members of an object after its opening brace, up to the closing one. -/
def parseMembers : Nat → List Char → Option (List (String × JVal) × List Char)
  | 0, _ => none
  | fuel + 1, cs =>
    match skipWs cs with
    | [] => none
    | q :: rest =>
      if q = '"' then
        match parseStr rest with
        | none => none
        | some (key, rest1) =>
          match skipWs rest1 with
          | [] => none
          | colon :: rest2 =>
            if colon = ':' then
              match parseValue fuel rest2 with
              | none => none
              | some (v, rest3) =>
                match skipWs rest3 with
                | [] => none
                | c :: rest4 =>
                  if c = ',' then
                    (parseMembers fuel rest4).map (fun r => ((String.mk key, v) :: r.1, r.2))
                  else if c = '}' then some ([(String.mk key, v)], rest4)
                  else none
            else none
      else none

end

/-- A whole JSON text: one value, then only white space. -/
def parseText (s : String) : Option JVal :=
  match parseValue (2 * s.data.length + 2) s.data with
  | none => none
  | some (v, rest) => if (skipWs rest).isEmpty then some v else none

/-! ### Decoding into the program's types -/

/-- ASCII lower-casing, for matching keys with field names. -/
def lower (c : Char) : Char :=
  if 65 ≤ c.toNat ∧ c.toNat ≤ 90 then Char.ofNat (c.toNat + 32) else c

/-- Whether a key of the text selects the field with the (lower-case) name. -/
def keyIs (key name : String) : Bool := key.data.map lower == name.data

/-- Value of a run of decimal digits. -/
def digitsVal (ds : List Char) : Nat := ds.foldl (fun acc c => acc * 10 + (c.toNat - 48)) 0

/-- The Go `int` a number literal stands for, if it is an integer of 64 bits. -/
def intOfLit (lit : List Char) : Option Int :=
  let negative : Bool := lit.head? == some '-'
  let ds := if negative then lit.tail else lit
  if ds.all isDigit && !ds.isEmpty then
    let v : Int := if negative then -(digitsVal ds : Int) else (digitsVal ds : Int)
    if -9223372036854775808 ≤ v ∧ v ≤ 9223372036854775807 then some v else none
  else none

/-- The error of a value of the wrong kind. -/
def kindError : Error := .decode "cannot unmarshal value into Go value of this type"

/-- The error of a text that is not JSON. -/
def textError : Error := .decode "invalid JSON text"

/-- The first of two errors. -/
def firstError (a b : Option Error) : Option Error :=
  match a with
  | some e => some e
  | none => b

/-- Decode into an `int` that holds `cur`. -/
def decodeInt (v : JVal) (cur : Int) : Int × Option Error :=
  match v with
  | .null => (cur, none)
  | .num lit =>
    match intOfLit lit.data with
    | some i => (i, none)
    | none => (cur, some kindError)
  | _ => (cur, some kindError)

/-- Decode into a `string` that holds `cur`. -/
def decodeString (v : JVal) (cur : String) : String × Option Error :=
  match v with
  | .null => (cur, none)
  | .str s => (s, none)
  | _ => (cur, some kindError)

/-- Decode into a slice that holds `cur`, each element starting from `zero`. -/
def decodeSlice {α : Type} (dec : JVal → α → α × Option Error) (zero : α) (v : JVal)
    (cur : Slice α) : Slice α × Option Error :=
  match v with
  | .null => (.nil, none)
  | .arr elems =>
    (.of (elems.map (fun e => (dec e zero).1)),
      elems.foldl (fun err e => firstError err (dec e zero).2) none)
  | _ => (cur, some kindError)

/-- Decode into a struct that holds `cur`; `field` decodes one member. -/
def decodeStruct {α : Type} (field : String → JVal → α → α × Option Error) (v : JVal)
    (cur : α) : α × Option Error :=
  match v with
  | .null => (cur, none)
  | .obj members =>
    members.foldl
      (fun acc kv => ((field kv.1 kv.2 acc.1).1, firstError acc.2 (field kv.1 kv.2 acc.1).2))
      (cur, none)
  | _ => (cur, some kindError)

/-- One member of a `Commit`. -/
def commitField (key : String) (v : JVal) (c : Commit) : Commit × Option Error :=
  if keyIs key "device_id" then
    ({ c with DeviceID := (decodeString v c.DeviceID).1 }, (decodeString v c.DeviceID).2)
  else if keyIs key "location" then
    ({ c with Location := (decodeString v c.Location).1 }, (decodeString v c.Location).2)
  else if keyIs key "delta" then
    ({ c with Delta := (decodeInt v c.Delta).1 }, (decodeInt v c.Delta).2)
  else if keyIs key "item_id" then
    ({ c with ItemID := (decodeInt v c.ItemID).1 }, (decodeInt v c.ItemID).2)
  else (c, none)

/-- One member of an `Item`. -/
def itemField (key : String) (v : JVal) (i : Item) : Item × Option Error :=
  if keyIs key "id" then ({ i with ID := (decodeInt v i.ID).1 }, (decodeInt v i.ID).2)
  else if keyIs key "name" then
    ({ i with Name := (decodeString v i.Name).1 }, (decodeString v i.Name).2)
  else (i, none)

/-- One member of a `Location`. -/
def locationField (key : String) (v : JVal) (l : Location) : Location × Option Error :=
  if keyIs key "location" then
    ({ l with LocationName := (decodeString v l.LocationName).1 },
      (decodeString v l.LocationName).2)
  else if keyIs key "items" then
    ({ l with Items := (decodeSlice decodeInt 0 v l.Items).1 },
      (decodeSlice decodeInt 0 v l.Items).2)
  else (l, none)

/-- The zero `Commit`. -/
def zeroCommit : Commit := { DeviceID := "", Location := "", Delta := 0, ItemID := 0 }

/-- The zero `Item`. -/
def zeroItem : Item := { ID := 0, Name := "" }

/-- The zero `Location`. -/
def zeroLocation : Location := { LocationName := "", Items := .nil }

/-- Decode a slice of commits. -/
def decodeQueue (v : JVal) (cur : Slice Commit) : Slice Commit × Option Error :=
  decodeSlice (decodeStruct commitField) zeroCommit v cur

/-- Decode a slice of items. -/
def decodeItems (v : JVal) (cur : Slice Item) : Slice Item × Option Error :=
  decodeSlice (decodeStruct itemField) zeroItem v cur

/-- Decode a slice of locations. -/
def decodeLocations (v : JVal) (cur : Slice Location) : Slice Location × Option Error :=
  decodeSlice (decodeStruct locationField) zeroLocation v cur

/-- One member of the items envelope. -/
def cachedItemsField (key : String) (v : JVal) (e : CachedItems) :
    CachedItems × Option Error :=
  if keyIs key "timestamp" then
    ({ e with Timestamp := (decodeInt v e.Timestamp).1 }, (decodeInt v e.Timestamp).2)
  else if keyIs key "items" then
    ({ e with Items := (decodeItems v e.Items).1 }, (decodeItems v e.Items).2)
  else (e, none)

/-- One member of the locations envelope. -/
def cachedLocationsField (key : String) (v : JVal) (e : CachedLocations) :
    CachedLocations × Option Error :=
  if keyIs key "timestamp" then
    ({ e with Timestamp := (decodeInt v e.Timestamp).1 }, (decodeInt v e.Timestamp).2)
  else if keyIs key "locations" then
    ({ e with Locations := (decodeLocations v e.Locations).1 },
      (decodeLocations v e.Locations).2)
  else (e, none)

/-- Decode into a `map[string]interface{}` that holds `cur`. -/
def decodeResult (v : JVal) (cur : ResultMap) : ResultMap × Option Error :=
  match v with
  | .null => (none, none)
  | .obj members => (some members, none)
  | _ => (cur, some kindError)

/-- Go `json.Unmarshal(data, &target)`, the target holding `zero`. -/
def unmarshal {α : Type} (dec : JVal → α → α × Option Error) (zero : α) (data : String) :
    α × Option Error :=
  match parseText data with
  | none => (zero, some textError)
  | some v => dec v zero

end GoJson

/-- The executable instance of `Lib`.  Of `url.Parse` only the rejection of
ASCII control characters is modelled. -/
def goLib : Lib where
  validURL := fun url => url.data.all (fun c => decide (32 ≤ c.toNat ∧ c.toNat ≠ 127))
  marshalPayload := fun p => (String.mk (GoJson.showPayload p), none)
  unmarshalResult := GoJson.unmarshal GoJson.decodeResult none
  unmarshalItems := GoJson.unmarshal GoJson.decodeItems .nil
  unmarshalLocations := GoJson.unmarshal GoJson.decodeLocations .nil
  marshalIndentCachedItems := fun e => (String.mk (GoJson.showCachedItems e), none)
  unmarshalCachedItems :=
    GoJson.unmarshal (GoJson.decodeStruct GoJson.cachedItemsField) { Timestamp := 0, Items := .nil }
  marshalIndentCachedLocations := fun e => (String.mk (GoJson.showCachedLocations e), none)
  unmarshalCachedLocations :=
    GoJson.unmarshal (GoJson.decodeStruct GoJson.cachedLocationsField)
      { Timestamp := 0, Locations := .nil }
  marshalIndentQueue := fun q => (String.mk (GoJson.showQueue q), none)
  unmarshalQueue := GoJson.unmarshal GoJson.decodeQueue .nil

/-! ## Notions used in the round-trip proof of the JSON instance -/

namespace GoJson

/-- The digits `ds` are the decimal numeral of `n`: digits only, at least one,
no leading zero but for the numeral of zero. -/
def IsDecimal (ds : List Char) (n : Nat) : Prop :=
  ds ≠ [] ∧ (∀ c ∈ ds, isDigit c = true) ∧ digitsVal ds = n ∧
    (ds.head? = some '0' → ds = ['0'])

/-- What follows a printed value: nothing, a comma or a line break. -/
def Delim (rest : List Char) : Prop :=
  rest = [] ∨ ∃ cs, rest = ',' :: cs ∨ rest = '\n' :: cs

/-- The integer fits a Go `int` of 64 bits. -/
def InInt64 (i : Int) : Prop := -9223372036854775808 ≤ i ∧ i ≤ 9223372036854775807

/-- The text is the print of the JSON value `v`: it starts with a character
that is neither white space nor a closing bracket, and it is parsed to `v`
with any fuel not below its length, whatever delimiter follows. -/
def Parses (text : List Char) (v : JVal) : Prop :=
  (∃ c cs, text = c :: cs ∧ isWs c = false ∧ c ≠ ']' ∧ c ≠ '\x7d') ∧
    ∀ fuel rest, text.length ≤ fuel → Delim rest →
      parseValue fuel (text ++ rest) = some (v, rest)

/-- The JSON value printed for an integer. -/
def imageInt (i : Int) : JVal := JVal.num (String.mk (showInt i))

/-- The JSON value printed for a slice, `image` being the one of an element. -/
def imageSlice {α : Type} (image : α → JVal) : Slice α → JVal
  | .nil => JVal.null
  | .of xs => JVal.arr (xs.map image)

/-- The JSON value printed for a commit. -/
def imageCommit (c : Commit) : JVal :=
  JVal.obj [("device_id", JVal.str c.DeviceID), ("location", JVal.str c.Location),
    ("delta", imageInt c.Delta), ("item_id", imageInt c.ItemID)]

/-- The JSON value printed for an item. -/
def imageItem (i : Item) : JVal :=
  JVal.obj [("id", imageInt i.ID), ("name", JVal.str i.Name)]

/-- The JSON value printed for a location. -/
def imageLocation (l : Location) : JVal :=
  JVal.obj [("location", JVal.str l.LocationName), ("items", imageSlice imageInt l.Items)]

/-- The JSON value printed for the items envelope. -/
def imageCachedItems (e : CachedItems) : JVal :=
  JVal.obj [("timestamp", imageInt e.Timestamp), ("items", imageSlice imageItem e.Items)]

/-- The JSON value printed for the locations envelope. -/
def imageCachedLocations (e : CachedLocations) : JVal :=
  JVal.obj [("timestamp", imageInt e.Timestamp),
    ("locations", imageSlice imageLocation e.Locations)]

end GoJson

/-- The integers of the commit fit a Go `int`. -/
def Commit.Fits (c : Commit) : Prop := GoJson.InInt64 c.Delta ∧ GoJson.InInt64 c.ItemID

/-- The integer of the item fits a Go `int`. -/
def Item.Fits (i : Item) : Prop := GoJson.InInt64 i.ID

/-- The item ids of the location fit a Go `int`. -/
def Location.Fits (l : Location) : Prop := ∀ i ∈ l.Items.toList, GoJson.InInt64 i

/-! ## Notions used in the statements -/

/-- Whether `SendCommit`, called for `commit` as the exchange made after `n`
earlier ones, returns an error (see `SendCommit_error_eq_sendFails`). -/
def sendFails (L : Lib) (E : Env) (c : Client) (n : Nat) (commit : Commit) : Bool :=
  match commitRequest L c commit.DeviceID commit.Location commit.Delta commit.ItemID with
  | none => false
  | some req =>
    match E.respond n req with
    | .transportError _ => true
    | .response status _ => decide (status ≥ 400)

/-- The commits of `queue`, paired with the number of their exchange (the
first one is number `n`), whose `SendCommit` returns an error. -/
def retained (L : Lib) (E : Env) (c : Client) (n : Nat) (queue : List Commit) :
    List (Nat × Commit) :=
  (queue.enumFrom n).filter (fun p => sendFails L E c p.1 p.2)

/-- The sub-sequence of `queue` whose `SendCommit` returns an error. -/
def failures (L : Lib) (E : Env) (c : Client) (n : Nat) (queue : List Commit) : List Commit :=
  (retained L E c n queue).map Prod.snd

/-- The library reads back the queue text it writes for `v`. -/
def QueueRoundTrips (L : Lib) (v : Slice Commit) : Prop :=
  L.unmarshalQueue (L.marshalIndentQueue v).1 = (v, none)

/-- The file holds a text that decodes, without error, to the sequence `xs`. -/
def HoldsQueue (L : Lib) (f : File) (xs : List Commit) : Prop :=
  ∃ data s, f.content = some data ∧ L.unmarshalQueue data = (s, none) ∧ s.toList = xs

/-- The network read of a fetch fails: the exchange ends in a transport
error, or the status is at least 400, or the body does not decode
(`decodeError` is the error of decoding the body, if any). -/
def ReadFails (decodeError : String → Option Error) (o : Outcome) : Prop :=
  match o with
  | .transportError _ => True
  | .response status body => status ≥ 400 ∨ decodeError body ≠ none

/-- The network read of a fetch succeeds with the value `v`: a response with a
status below 400 whose body decodes to `v` without error. -/
def ReadGives {α : Type} (decode : String → α × Option Error) (o : Outcome) (v : α) : Prop :=
  match o with
  | .transportError _ => False
  | .response status body => status < 400 ∧ decode body = (v, none)

/-- The library reads back the items envelope it writes for `e`. -/
def ItemsRoundTrips (L : Lib) (e : CachedItems) : Prop :=
  (L.marshalIndentCachedItems e).2 = none ∧
    L.unmarshalCachedItems (L.marshalIndentCachedItems e).1 = (e, none)

/-- The library writes the items envelope `e` and reads the text back without
error. -/
def ItemsReloads (L : Lib) (e : CachedItems) : Prop :=
  (L.marshalIndentCachedItems e).2 = none ∧
    (L.unmarshalCachedItems (L.marshalIndentCachedItems e).1).2 = none

/-- The envelope an items cache file holds, if its text decodes without error. -/
def cachedItemsOf (L : Lib) (f : File) : Option CachedItems :=
  match f.content with
  | none => none
  | some data =>
    match L.unmarshalCachedItems data with
    | (e, none) => some e
    | (_, some _) => none

/-- The items cache cannot be used: the file is absent, or unreadable, or its
text does not decode. -/
def ItemsCacheUnusable (L : Lib) (f : File) : Prop :=
  f.content = none ∨ f.readable = false ∨
    ∃ data, f.content = some data ∧ (L.unmarshalCachedItems data).2 ≠ none

/-- The items cache can be used: the file is readable and its text decodes
without error. -/
def ItemsCacheUsable (L : Lib) (f : File) : Prop :=
  f.readable = true ∧ ∃ data, f.content = some data ∧ (L.unmarshalCachedItems data).2 = none

/-- Calls of `FetchItems` one after the other, `n` of them; the results are
listed oldest first. -/
def fetchItemsTimes (L : Lib) (E : Env) (c : Client) :
    Nat → World → Option (List (Slice Item × Option Error) × World)
  | 0, w => some ([], w)
  | n + 1, w =>
    match FetchItems L E c w with
    | none => none
    | some (r, w1) =>
      match fetchItemsTimes L E c n w1 with
      | none => none
      | some (rs, w2) => some (r :: rs, w2)

/-! ## Concrete data for the worked instances -/

/-- A client with a well-formed base URL. -/
def exClient : Client :=
  { BaseURL := "https://wms.example.com", APIKey := "k1", BasePath := "/data" }

/-- The queue of that client. -/
def exQueue : Queue := { api := exClient, filePath := "/data/pending_commits.json" }

/-- Commit `A`. -/
def commitA : Commit := { DeviceID := "D1", Location := "A1", Delta := -3, ItemID := 42 }

/-- Commit `B`. -/
def commitB : Commit := { DeviceID := "D1", Location := "B7", Delta := 5, ItemID := 7 }

/-- Commit `C`. -/
def commitC : Commit := { DeviceID := "D2", Location := "A1", Delta := 1, ItemID := 42 }

/-- A file that does not exist yet, in a directory the program may use. -/
def noFile : File := { content := none, readable := true, writable := true }

/-- An existing file with the given text. -/
def fileOf (text : String) : File := { content := some text, readable := true, writable := true }

/-- A world with the given queue file and items cache, before any exchange. -/
def worldOf (queueFile itemsCache : File) : World :=
  { queueFile := queueFile, itemsCache := itemsCache, locationsCache := noFile,
    requests := [], dials := 0, clockReads := 0 }

/-- The world whose queue file holds `A`, `B`, `C`. -/
def worldABC : World :=
  worldOf (fileOf (goLib.marshalIndentQueue (.of [commitA, commitB, commitC])).1) noFile

/-- The world whose queue file holds `A`, `B`. -/
def worldAB : World :=
  worldOf (fileOf (goLib.marshalIndentQueue (.of [commitA, commitB])).1) noFile

/-- An environment in which the exchange made after `k` earlier ones is
answered with status 500, every other one with status 201; the network is
reachable. -/
def envFailsAt (k : Nat) : Env :=
  { respond := fun n _ =>
      if n = k then .response 500 "\x7b\"message\":\"busy\"\x7d"
      else .response 201 "[\x7b\"id\":1\x7d]"
    dial := fun _ => none
    now := fun _ => 1700000000 }

/-- An environment without network: every exchange ends in a transport error
and the probe fails. -/
def envOffline : Env :=
  { respond := fun _ _ => .transportError (.transport "dial tcp: network is unreachable")
    dial := fun _ => some (.transport "dial tcp 8.8.8.8:443: i/o timeout")
    now := fun _ => 1700000000 }

/-- The request `FetchItems` builds for `exClient`. -/
def exItemsRequest : Request :=
  { method := "GET", url := "https://wms.example.com/rest/v1/items?select=*",
    header := [("Authorization", "Bearer k1"), ("apikey", "k1")], body := none }

/-- The request `FetchLocations` builds for `exClient`. -/
def exLocationsRequest : Request :=
  { method := "GET", url := "https://wms.example.com/rest/v1/locations?select=*",
    header := [("Authorization", "Bearer k1"), ("apikey", "k1")], body := none }

/-- An item the server knows. -/
def itemBolt : Item := { ID := 1, Name := "bolt" }

/-- Another one. -/
def itemNut : Item := { ID := 2, Name := "nut" }

/-- An item of an older snapshot. -/
def itemWasher : Item := { ID := 9, Name := "washer" }

/-- A response body listing `itemBolt`. -/
def boltBody : String := "[\x7b\"id\":1,\"name\":\"bolt\"\x7d]"

/-- A world whose items cache holds an older snapshot of three items. -/
def worldOldCache : World :=
  worldOf noFile (fileOf (goLib.marshalIndentCachedItems
    { Timestamp := 1690000000, Items := .of [itemWasher, itemNut, itemBolt] }).1)

/-- A world without any file. -/
def worldEmpty : World := worldOf noFile noFile

/-- An environment that answers every exchange with the given status and body. -/
def envAnswers (status : Int) (body : String) : Env :=
  { respond := fun _ _ => .response status body
    dial := fun _ => none
    now := fun n => 1700000000 + n }

/-- An environment whose first exchange is answered with `200` and the given
body and whose later exchanges end in a transport error. -/
def envThenDown (body : String) : Env :=
  { respond := fun n _ =>
      if n = 0 then .response 200 body
      else .transportError (.transport "dial tcp: network is unreachable")
    dial := fun _ => none
    now := fun _ => 1700000000 }

/-- The request `Check` builds for `exClient`. -/
def exCheckRequest : Request :=
  { method := "GET", url := "https://wms.example.com/rest/v1/items?select=*&limit=1",
    header := [("Authorization", "Bearer k1"), ("apikey", "k1")], body := none }

/-- A client whose base URL ends in a line feed, which `url.Parse` rejects. -/
def badClient : Client :=
  { BaseURL := "https://wms.example.com\n", APIKey := "k1", BasePath := "/data" }

/-- The world whose queue file holds `A` alone. -/
def worldA : World := worldOf (fileOf (goLib.marshalIndentQueue (.of [commitA])).1) noFile

/-- A queue text whose one entry has a string where the integer `delta` is
expected. -/
def damagedQueueText : String :=
  "[\x7b\"device_id\":\"D1\",\"location\":\"A1\",\"delta\":\"x\",\"item_id\":42\x7d]"

/-- The world whose queue file holds the damaged text. -/
def worldDamaged : World := worldOf (fileOf damagedQueueText) noFile

/-! ## Theorems -/

theorem commitRequest_of_valid (L : Lib) (c : Client) (d l : String) (delta item : Int)
    (hurl : L.validURL (c.BaseURL ++ "/rest/v1/commits") = true) :
    ∃ req, commitRequest L c d l delta item = some req := by
  simp [commitRequest, newRequest, hurl]

theorem SendCommit_of_request (L : Lib) (E : Env) (c : Client) (d l : String)
    (delta item : Int) (w : World) (req : Request)
    (hreq : commitRequest L c d l delta item = some req) :
    SendCommit L E c d l delta item w =
      some ((match E.respond w.requests.length req with
             | .transportError err => ((none : ResultMap), some err)
             | .response status body =>
               if status ≥ 400 then (none, some (.status status))
               else ((L.unmarshalResult body).1, none)),
            { w with requests := w.requests ++ [req] }) := by
  unfold SendCommit
  rw [hreq]
  simp only [Do]
  cases h : E.respond w.requests.length req with
  | transportError err => simp
  | response status body =>
    by_cases hs : status ≥ 400 <;> simp [hs]

/-- The error returned by `SendCommit` is the one `sendFails` tells of. -/
theorem SendCommit_error_eq_sendFails (L : Lib) (E : Env) (c : Client) (commit : Commit)
    (w : World) (r : ResultMap × Option Error) (w1 : World)
    (h : SendCommit L E c commit.DeviceID commit.Location commit.Delta commit.ItemID w
      = some (r, w1)) :
    r.2.isSome = sendFails L E c w.requests.length commit := by
  unfold SendCommit at h
  unfold sendFails
  cases hreq : commitRequest L c commit.DeviceID commit.Location commit.Delta commit.ItemID with
  | none => simp [hreq] at h
  | some req =>
    simp only [hreq, Do] at h ⊢
    cases ho : E.respond w.requests.length req with
    | transportError err =>
      simp only [ho, Option.some.injEq, Prod.mk.injEq] at h
      rw [← h.1]; rfl
    | response status body =>
      simp only [ho] at h
      by_cases hs : status ≥ 400
      · simp only [hs, if_true, Option.some.injEq, Prod.mk.injEq] at h
        rw [← h.1]; simp [hs]
      · simp only [hs, if_false, Option.some.injEq, Prod.mk.injEq] at h
        rw [← h.1]; simp [hs]

theorem Slice.extend_append {α : Type} (s : Slice α) (x : α) (xs : List α) :
    (s.append x).extend xs = s.extend (x :: xs) := by
  cases xs <;> simp [Slice.extend, Slice.append, Slice.toList]

theorem Slice.extend_nil {α : Type} (xs : List α) :
    (Slice.nil : Slice α).extend xs = Slice.collect xs := by
  cases xs <;> simp [Slice.extend, Slice.collect, Slice.toList]

/-- The loop of `processQueue` sends every commit once, in order, and appends
to `newQueue` those whose send failed. -/
theorem drain_eq (L : Lib) (E : Env) (q : Queue)
    (hurl : L.validURL (q.api.BaseURL ++ "/rest/v1/commits") = true) :
    ∀ (queue : List Commit) (newQueue : Slice Commit) (w : World),
      ∃ added : List Request,
        drain L E q queue newQueue w =
          some (newQueue.extend (failures L E q.api w.requests.length queue),
                { w with requests := w.requests ++ added }) ∧
        added.map some = queue.map (fun k =>
          commitRequest L q.api k.DeviceID k.Location k.Delta k.ItemID) := by
  intro queue
  induction queue with
  | nil =>
    intro newQueue w
    refine ⟨[], ?_, rfl⟩
    simp [drain, failures, retained, Slice.extend]
  | cons commit rest ih =>
    intro newQueue w
    obtain ⟨req, hreq⟩ := commitRequest_of_valid L q.api commit.DeviceID commit.Location
      commit.Delta commit.ItemID hurl
    have hsend := SendCommit_of_request L E q.api commit.DeviceID commit.Location
      commit.Delta commit.ItemID w req hreq
    have hfail : sendFails L E q.api w.requests.length commit =
        (match E.respond w.requests.length req with
         | .transportError _ => true
         | .response status _ => decide (status ≥ 400)) := by
      simp [sendFails, hreq]
    cases ho : E.respond w.requests.length req with
    | transportError err =>
      rw [ho] at hsend hfail
      simp only at hsend hfail
      obtain ⟨added, hd, hmap⟩ := ih (newQueue.append commit)
        { w with requests := w.requests ++ [req] }
      refine ⟨req :: added, ?_, ?_⟩
      · simp only [drain, hsend, hd]
        simp [failures, retained, List.enumFrom_cons, List.filter_cons, hfail,
          Slice.extend_append]
      · simp [hmap, hreq]
    | response status body =>
      rw [ho] at hsend hfail
      simp only at hsend hfail
      by_cases hs : status ≥ 400
      · simp only [hs, if_true, decide_True] at hsend hfail
        obtain ⟨added, hd, hmap⟩ := ih (newQueue.append commit)
          { w with requests := w.requests ++ [req] }
        refine ⟨req :: added, ?_, ?_⟩
        · simp only [drain, hsend, hd]
          simp [failures, retained, List.enumFrom_cons, List.filter_cons, hfail,
            Slice.extend_append]
        · simp [hmap, hreq]
      · simp only [hs, if_false, decide_False] at hsend hfail
        obtain ⟨added, hd, hmap⟩ := ih newQueue { w with requests := w.requests ++ [req] }
        refine ⟨req :: added, ?_, ?_⟩
        · simp only [drain, hsend, hd]
          simp [failures, retained, List.enumFrom_cons, List.filter_cons, hfail]
        · simp [hmap, hreq]

theorem loadQueue_nonempty_file (L : Lib) (q : Queue) (w : World)
    (hne : (loadQueue L q w).len ≠ 0) :
    ∃ data, w.queueFile.content = some data ∧ w.queueFile.readable = true ∧
      loadQueue L q w = (L.unmarshalQueue data).1 := by
  unfold loadQueue at hne ⊢
  cases hc : w.queueFile.content with
  | none => simp [File.isNotExist, hc, Slice.len, Slice.toList] at hne
  | some data =>
    cases hr : w.queueFile.readable with
    | false => simp [File.isNotExist, File.read, hc, hr, Slice.len, Slice.toList] at hne
    | true => exact ⟨data, rfl, rfl, by simp [File.isNotExist, File.read, hc, hr]⟩

theorem loadQueue_of_content (L : Lib) (q : Queue) (w : World) (data : String)
    (hc : w.queueFile.content = some data) (hr : w.queueFile.readable = true) :
    loadQueue L q w = (L.unmarshalQueue data).1 := by
  simp [loadQueue, File.isNotExist, File.read, hc, hr]

theorem saveQueue_writable (L : Lib) (q : Queue) (v : Slice Commit) (w : World)
    (hw : w.queueFile.writable = true) :
    saveQueue L q v w =
      { w with queueFile := { w.queueFile with content := some (L.marshalIndentQueue v).1 } } := by
  simp [saveQueue, File.write, hw]

theorem retained_sublist (L : Lib) (E : Env) (c : Client) (n : Nat) (queue : List Commit) :
    (failures L E c n queue).Sublist queue := by
  have h : ((queue.enumFrom n).filter (fun p => sendFails L E c p.1 p.2)).Sublist
      (queue.enumFrom n) := List.filter_sublist _
  have h2 := h.map Prod.snd
  rw [List.enumFrom_map_snd] at h2
  exact h2

theorem mem_retained_iff (L : Lib) (E : Env) (c : Client) (n i : Nat) (queue : List Commit)
    (commit : Commit) (hi : queue[i]? = some commit) :
    (n + i, commit) ∈ retained L E c n queue ↔ sendFails L E c (n + i) commit = true := by
  unfold retained
  rw [List.mem_filter]
  constructor
  · intro h; exact h.2
  · intro h
    refine ⟨?_, h⟩
    rw [List.mem_iff_getElem?]
    refine ⟨i, ?_⟩
    rw [List.getElem?_enumFrom, hi]
    rfl

/-- C1. One drain pass over a non-empty queue leaves in the queue file exactly
the sub-sequence of the loaded commits whose `SendCommit` returned an error, in
their original order: the file text is the serialisation of that sub-sequence,
the queue read back from the file is that sub-sequence, and the commit at
position `i` is kept if and only if its own send failed, `sendFails` being the
presence of an error in what `SendCommit` returns when it is called as the
exchange of that position.  Assumed: the commit
URL can be parsed, the queue file can be written, and the library reads back the
text it writes for the rebuilt sequence. -/
theorem processQueue_keeps_exactly_failures (L : Lib) (E : Env) (q : Queue) (w : World)
    (hurl : L.validURL (q.api.BaseURL ++ "/rest/v1/commits") = true)
    (hw : w.queueFile.writable = true)
    (hne : (loadQueue L q w).len ≠ 0)
    (hrt : QueueRoundTrips L
      (Slice.collect (failures L E q.api w.requests.length (loadQueue L q w).toList))) :
    ∃ w1, processQueue L E q w = some w1 ∧
      w1.queueFile.content = some (L.marshalIndentQueue
        (Slice.collect (failures L E q.api w.requests.length (loadQueue L q w).toList))).1 ∧
      (loadQueue L q w1).toList = failures L E q.api w.requests.length (loadQueue L q w).toList ∧
      HoldsQueue L w1.queueFile (failures L E q.api w.requests.length (loadQueue L q w).toList) ∧
      (failures L E q.api w.requests.length (loadQueue L q w).toList).Sublist
        (loadQueue L q w).toList ∧
      (∀ i commit, (loadQueue L q w).toList[i]? = some commit →
        ((w.requests.length + i, commit) ∈
            retained L E q.api w.requests.length (loadQueue L q w).toList ↔
          sendFails L E q.api (w.requests.length + i) commit = true)) ∧
      ∀ (i : Nat) (commit : Commit) (w2 w3 : World) (r : ResultMap × Option Error),
        w2.requests.length = w.requests.length + i →
        SendCommit L E q.api commit.DeviceID commit.Location commit.Delta commit.ItemID w2 =
          some (r, w3) →
        r.2.isSome = sendFails L E q.api (w.requests.length + i) commit := by
  obtain ⟨data, hc, hr, _⟩ := loadQueue_nonempty_file L q w hne
  obtain ⟨added, hd, _⟩ := drain_eq L E q hurl (loadQueue L q w).toList .nil w
  rw [Slice.extend_nil] at hd
  have hcollect : ∀ xs : List Commit, (Slice.collect xs).toList = xs := by
    intro xs; cases xs <;> rfl
  have hp : processQueue L E q w = some (saveQueue L q
      (Slice.collect (failures L E q.api w.requests.length (loadQueue L q w).toList))
      { w with requests := w.requests ++ added }) := by
    simp only [processQueue, hne, if_false, hd]
  refine ⟨_, hp, ?_, ?_, ?_, retained_sublist L E q.api _ _, ?_, ?_⟩
  · rw [saveQueue_writable L q _ _ (by simpa using hw)]
  · rw [loadQueue_of_content L q _ (L.marshalIndentQueue _).1
      (by rw [saveQueue_writable L q _ _ (by simpa using hw)])
      (by rw [saveQueue_writable L q _ _ (by simpa using hw)]; simpa using hr)]
    rw [hrt]
    exact hcollect _
  · refine ⟨_, _, ?_, hrt, hcollect _⟩
    rw [saveQueue_writable L q _ _ (by simpa using hw)]
  · intro i commit hi
    exact mem_retained_iff L E q.api _ i _ commit hi
  · intro i commit w2 w3 r hlen hs
    rw [← hlen]
    exact SendCommit_error_eq_sendFails L E q.api commit w2 r w3 hs

/-- C2. In one drain pass `SendCommit` is called exactly once for every commit
of the loaded queue, in FIFO order, whatever the outcomes: the requests added
to the log are, one for one and in order, the requests built for the loaded
commits.  If the commit at position `i` fails and a later one at position `j`
succeeds, the later one has been sent all the same and is not among the
retained commits, which are what the queue file holds afterwards.  Assumed: the
commit URL can be parsed. -/
theorem processQueue_sends_every_commit_once (L : Lib) (E : Env) (q : Queue) (w : World)
    (hurl : L.validURL (q.api.BaseURL ++ "/rest/v1/commits") = true)
    (hne : (loadQueue L q w).len ≠ 0) :
    ∃ w1 added, processQueue L E q w = some w1 ∧
      w1.requests = w.requests ++ added ∧
      added.map some = (loadQueue L q w).toList.map (fun k =>
        commitRequest L q.api k.DeviceID k.Location k.Delta k.ItemID) ∧
      (w.queueFile.writable = true →
        w1.queueFile.content = some (L.marshalIndentQueue (Slice.collect
          ((retained L E q.api w.requests.length (loadQueue L q w).toList).map Prod.snd))).1) ∧
      ∀ i j A B, i < j → (loadQueue L q w).toList[i]? = some A →
        (loadQueue L q w).toList[j]? = some B →
        sendFails L E q.api (w.requests.length + i) A = true →
        sendFails L E q.api (w.requests.length + j) B = false →
        w1.requests[w.requests.length + j]? =
            commitRequest L q.api B.DeviceID B.Location B.Delta B.ItemID ∧
          (w.requests.length + j, B) ∉
            retained L E q.api w.requests.length (loadQueue L q w).toList ∧
          (w.requests.length + i, A) ∈
            retained L E q.api w.requests.length (loadQueue L q w).toList := by
  obtain ⟨added, hd, hmap⟩ := drain_eq L E q hurl (loadQueue L q w).toList .nil w
  rw [Slice.extend_nil] at hd
  have hp : processQueue L E q w = some (saveQueue L q
      (Slice.collect (failures L E q.api w.requests.length (loadQueue L q w).toList))
      { w with requests := w.requests ++ added }) := by
    simp only [processQueue, hne, if_false, hd]
  refine ⟨_, added, hp, ?_, hmap, ?_, ?_⟩
  · simp [saveQueue]
  · intro hw
    rw [saveQueue_writable L q _ _ (by simpa using hw)]
    rfl
  · intro i j A B _ hA hB hfA hfB
    refine ⟨?_, ?_, ?_⟩
    · have hlen : added.length = (loadQueue L q w).toList.length := by
        have := congrArg List.length hmap
        simpa using this
      have hj : j < (loadQueue L q w).toList.length := by
        rcases List.getElem?_eq_some.mp hB with ⟨h, _⟩
        exact h
      have h1 : (added.map some)[j]? = some (commitRequest L q.api B.DeviceID B.Location
          B.Delta B.ItemID) := by
        rw [hmap, List.getElem?_map, hB]; rfl
      rw [List.getElem?_map] at h1
      have h2 : (saveQueue L q (Slice.collect (failures L E q.api w.requests.length
          (loadQueue L q w).toList)) { w with requests := w.requests ++ added }).requests
          = w.requests ++ added := by simp [saveQueue]
      rw [h2, List.getElem?_append_right (by omega)]
      have h3 : w.requests.length + j - w.requests.length = j := by omega
      rw [h3]
      cases hx : added[j]? with
      | none => simp [hx] at h1
      | some r => simpa [hx] using h1
    · rw [mem_retained_iff L E q.api _ j _ B hB, hfB]; simp
    · rw [mem_retained_iff L E q.api _ i _ A hA]; exact hfA

set_option maxRecDepth 100000 in
/-- Witness of C1: the queue file holds `A`, `B`, `C`, the send of `B` fails and
the other two succeed; after the pass the queue read back is exactly `[B]`. -/
theorem processQueue_keeps_exactly_failures_witness :
    (goLib.validURL (exQueue.api.BaseURL ++ "/rest/v1/commits") = true ∧
      worldABC.queueFile.writable = true ∧
      (loadQueue goLib exQueue worldABC).len ≠ 0 ∧
      QueueRoundTrips goLib (Slice.collect (failures goLib (envFailsAt 1) exQueue.api
        worldABC.requests.length (loadQueue goLib exQueue worldABC).toList))) ∧
    ∃ w1, processQueue goLib (envFailsAt 1) exQueue worldABC = some w1 ∧
      (loadQueue goLib exQueue w1).toList = [commitB] := by
  have h1 : goLib.validURL (exQueue.api.BaseURL ++ "/rest/v1/commits") = true := by decide
  have h2 : worldABC.queueFile.writable = true := by decide
  have h3 : (loadQueue goLib exQueue worldABC).len ≠ 0 := by decide
  have h4 : QueueRoundTrips goLib (Slice.collect (failures goLib (envFailsAt 1) exQueue.api
      worldABC.requests.length (loadQueue goLib exQueue worldABC).toList)) := by
    unfold QueueRoundTrips; decide
  refine ⟨⟨h1, h2, h3, h4⟩, ?_⟩
  obtain ⟨w1, hp, _, hl, _⟩ :=
    processQueue_keeps_exactly_failures goLib (envFailsAt 1) exQueue worldABC h1 h2 h3 h4
  refine ⟨w1, hp, ?_⟩
  rw [hl]; decide

set_option maxRecDepth 100000 in
/-- Witness of C2: the queue file holds `A`, `B`; the send of `A` fails and the
send of `B` succeeds.  Both requests are in the log, in order, and the file
holds `[A]` afterwards. -/
theorem processQueue_sends_every_commit_once_witness :
    (goLib.validURL (exQueue.api.BaseURL ++ "/rest/v1/commits") = true ∧
      (loadQueue goLib exQueue worldAB).len ≠ 0) ∧
    ∃ w1 added, processQueue goLib (envFailsAt 0) exQueue worldAB = some w1 ∧
      w1.requests = added ∧
      added.map some = [commitA, commitB].map (fun k =>
        commitRequest goLib exClient k.DeviceID k.Location k.Delta k.ItemID) ∧
      w1.queueFile.content = some (goLib.marshalIndentQueue (.of [commitA])).1 := by
  have h1 : goLib.validURL (exQueue.api.BaseURL ++ "/rest/v1/commits") = true := by decide
  have h3 : (loadQueue goLib exQueue worldAB).len ≠ 0 := by decide
  refine ⟨⟨h1, h3⟩, ?_⟩
  obtain ⟨w1, added, hp, hr, hm, hc, _⟩ :=
    processQueue_sends_every_commit_once goLib (envFailsAt 0) exQueue worldAB h1 h3
  refine ⟨w1, added, hp, ?_, ?_, ?_⟩
  · rw [hr]; rfl
  · rw [hm]; decide
  · rw [hc (by decide)]; decide

/-- C3. For a queue file that is absent (`xs = []`) or holds a text decoding to
the sequence `xs`, `SubmitCommit` leaves the file holding `xs` followed by the
new commit: the text written is the serialisation of `xs ++ [c]`, it decodes to
`xs ++ [c]`, and what is read back is that sequence.  No exchange is made and
the call takes no environment, so the result is the same in every network
state; the caches are not touched.  Assumed: the file can be read and written
and the library reads back the text it writes for `xs ++ [c]`. -/
theorem SubmitCommit_appends (L : Lib) (q : Queue) (deviceID location : String)
    (delta itemID : Int) (w : World) (xs : List Commit)
    (hpre : (w.queueFile.content = none ∧ xs = []) ∨ HoldsQueue L w.queueFile xs)
    (hr : w.queueFile.readable = true)
    (hw : w.queueFile.writable = true)
    (hrt : QueueRoundTrips L (.of (xs ++
      [Commit.mk deviceID location delta itemID]))) :
    (SubmitCommit L q deviceID location delta itemID w).queueFile.content =
        some (L.marshalIndentQueue (.of (xs ++
          [Commit.mk deviceID location delta itemID]))).1 ∧
      HoldsQueue L (SubmitCommit L q deviceID location delta itemID w).queueFile
        (xs ++ [Commit.mk deviceID location delta itemID]) ∧
      loadQueue L q (SubmitCommit L q deviceID location delta itemID w) =
        .of (xs ++ [Commit.mk deviceID location delta itemID]) ∧
      (SubmitCommit L q deviceID location delta itemID w).requests = w.requests ∧
      (SubmitCommit L q deviceID location delta itemID w).itemsCache = w.itemsCache ∧
      (SubmitCommit L q deviceID location delta itemID w).locationsCache = w.locationsCache := by
  have hload : (loadQueue L q w).toList = xs := by
    rcases hpre with ⟨hc, hx⟩ | ⟨data, s, hc, hu, hs⟩
    · simp [loadQueue, File.isNotExist, hc, hx, Slice.toList]
    · rw [loadQueue_of_content L q w data hc hr, hu]; exact hs
  have hsub : SubmitCommit L q deviceID location delta itemID w =
      { w with queueFile := { w.queueFile with content := some (L.marshalIndentQueue
        (.of (xs ++ [Commit.mk deviceID location delta itemID]))).1 } } := by
    unfold SubmitCommit
    simp only [Slice.append, hload]
    rw [saveQueue_writable L q _ _ hw]
  rw [hsub]
  refine ⟨rfl, ⟨_, _, rfl, hrt, rfl⟩, ?_, rfl, rfl, rfl⟩
  have key : ∀ w2 : World,
      w2.queueFile.content = some (L.marshalIndentQueue (.of (xs ++
        [Commit.mk deviceID location delta itemID]))).1 →
      w2.queueFile.readable = true →
      loadQueue L q w2 = .of (xs ++ [Commit.mk deviceID location delta itemID]) := by
    intro w2 hc2 hr2
    rw [loadQueue_of_content L q w2 _ hc2 hr2, hrt]
  exact key _ rfl hr

set_option maxRecDepth 100000 in
/-- Witness of C3: submitting `C` to the file that holds `A`, `B`. -/
theorem SubmitCommit_appends_witness :
    (((worldAB.queueFile.content = none ∧ [commitA, commitB] = []) ∨
        HoldsQueue goLib worldAB.queueFile [commitA, commitB]) ∧
      worldAB.queueFile.readable = true ∧ worldAB.queueFile.writable = true ∧
      QueueRoundTrips goLib (.of ([commitA, commitB] ++ [commitC]))) ∧
    loadQueue goLib exQueue (SubmitCommit goLib exQueue "D2" "A1" 1 42 worldAB) =
      .of [commitA, commitB, commitC] := by
  have h1 : (worldAB.queueFile.content = none ∧ [commitA, commitB] = []) ∨
      HoldsQueue goLib worldAB.queueFile [commitA, commitB] :=
    Or.inr ⟨(goLib.marshalIndentQueue (.of [commitA, commitB])).1, .of [commitA, commitB],
      rfl, by decide, rfl⟩
  have h4 : QueueRoundTrips goLib (.of ([commitA, commitB] ++ [commitC])) := by
    unfold QueueRoundTrips; decide
  exact ⟨⟨h1, rfl, rfl, h4⟩,
    (SubmitCommit_appends goLib exQueue "D2" "A1" 1 42 worldAB [commitA, commitB]
      h1 rfl rfl h4).2.2.1⟩

/-- C9. `SendCommit` returns an error if and only if the exchange ends in a
transport error or the response status is at least 400; in every other case it
returns the decoded result map and no error.  The world it leaves differs from
the one it found only by the request added to the log (no file is written), and
its result is the same for any two worlds with equally many earlier exchanges,
whatever their files hold (no file is read).  Assumed: the commit URL can be
parsed, so that a request is built. -/
theorem SendCommit_error_iff (L : Lib) (E : Env) (c : Client) (deviceID location : String)
    (delta itemID : Int) (w : World)
    (hurl : L.validURL (c.BaseURL ++ "/rest/v1/commits") = true) :
    ∃ req result err,
      commitRequest L c deviceID location delta itemID = some req ∧
      SendCommit L E c deviceID location delta itemID w =
        some ((result, err), { w with requests := w.requests ++ [req] }) ∧
      (err ≠ none ↔
        ((∃ e, E.respond w.requests.length req = .transportError e) ∨
          ∃ status body, E.respond w.requests.length req = .response status body ∧
            status ≥ 400)) ∧
      (∀ e, E.respond w.requests.length req = .transportError e →
        result = none ∧ err = some e) ∧
      (∀ status body, E.respond w.requests.length req = .response status body →
        status ≥ 400 → result = none ∧ err = some (.status status)) ∧
      (∀ status body, E.respond w.requests.length req = .response status body →
        status < 400 → result = (L.unmarshalResult body).1 ∧ err = none) ∧
      ∀ w2 : World, w2.requests.length = w.requests.length →
        (SendCommit L E c deviceID location delta itemID w2).map Prod.fst = some (result, err) := by
  obtain ⟨req, hreq⟩ := commitRequest_of_valid L c deviceID location delta itemID hurl
  have hsend := SendCommit_of_request L E c deviceID location delta itemID w req hreq
  have hind : ∀ w2 : World, w2.requests.length = w.requests.length →
      (SendCommit L E c deviceID location delta itemID w2).map Prod.fst =
        (SendCommit L E c deviceID location delta itemID w).map Prod.fst := by
    intro w2 hlen
    rw [SendCommit_of_request L E c deviceID location delta itemID w2 req hreq, hsend, hlen]
    rfl
  cases ho : E.respond w.requests.length req with
  | transportError e =>
    rw [ho] at hsend
    refine ⟨req, none, some e, hreq, hsend, ?_, ?_, ?_, ?_, ?_⟩
    · simp [ho]
    · intro e2 h2; rw [ho] at h2; cases h2; exact ⟨rfl, rfl⟩
    · intro status body h2; rw [ho] at h2; cases h2
    · intro status body h2; rw [ho] at h2; cases h2
    · intro w2 hlen; rw [hind w2 hlen, hsend]; rfl
  | response status body =>
    rw [ho] at hsend
    by_cases hs : status ≥ 400
    · simp only [hs, if_true] at hsend
      refine ⟨req, none, some (.status status), hreq, hsend, ?_, ?_, ?_, ?_, ?_⟩
      · simp [ho, hs]
      · intro e2 h2; rw [ho] at h2; cases h2
      · intro s2 b2 h2 _; rw [ho] at h2; cases h2; exact ⟨rfl, rfl⟩
      · intro s2 b2 h2 hlt; rw [ho] at h2; cases h2; omega
      · intro w2 hlen; rw [hind w2 hlen, hsend]; rfl
    · simp only [hs, if_false] at hsend
      refine ⟨req, (L.unmarshalResult body).1, none, hreq, hsend, ?_, ?_, ?_, ?_, ?_⟩
      · simp [ho, hs]
      · intro e2 h2; rw [ho] at h2; cases h2
      · intro s2 b2 h2 hge; rw [ho] at h2; cases h2; exact absurd hge hs
      · intro s2 b2 h2 _; rw [ho] at h2; cases h2; exact ⟨rfl, rfl⟩
      · intro w2 hlen; rw [hind w2 hlen, hsend]; rfl

/-- Witness of C9: a well-formed base URL. -/
theorem SendCommit_error_iff_witness :
    goLib.validURL (exClient.BaseURL ++ "/rest/v1/commits") = true ∧
    ∃ req result err,
      commitRequest goLib exClient "D1" "A1" (-3) 42 = some req ∧
      SendCommit goLib (envFailsAt 0) exClient "D1" "A1" (-3) 42 worldAB =
        some ((result, err), { worldAB with requests := worldAB.requests ++ [req] }) ∧
      err = some (.status 500) := by
  have h1 : goLib.validURL (exClient.BaseURL ++ "/rest/v1/commits") = true := by decide
  obtain ⟨req, result, err, hreq, hs, _, _, h500, _⟩ :=
    SendCommit_error_iff goLib (envFailsAt 0) exClient "D1" "A1" (-3) 42 worldAB h1
  exact ⟨h1, req, result, err, hreq, hs, (h500 500 _ rfl (by decide)).2⟩

theorem tick_offline (L : Lib) (E : Env) (q : Queue) (w : World) :
    ((internetAvailable E q w).1 = false →
      tick L E q w = some { w with dials := w.dials + 1 }) ∧
    ((internetAvailable E q w).1 = true →
      tick L E q w = processQueue L E q { w with dials := w.dials + 1 }) := by
  unfold tick internetAvailable
  cases hd : E.dial w.dials <;> simp

/-- While every probe fails, the worker loop leaves the files and the request
log as they were, whatever events it receives. -/
theorem worker_offline (L : Lib) (E : Env) (q : Queue)
    (hoff : ∀ n, E.dial n ≠ none) :
    ∀ (evs : List Event) (w : World), ∃ w1, worker L E q evs w = some w1 ∧
      w1.queueFile = w.queueFile ∧ w1.requests = w.requests ∧
      w1.itemsCache = w.itemsCache ∧ w1.locationsCache = w.locationsCache := by
  intro evs
  induction evs with
  | nil => intro w; exact ⟨w, rfl, rfl, rfl, rfl, rfl⟩
  | cons ev evs ih =>
    intro w
    cases ev with
    | stop => exact ⟨w, rfl, rfl, rfl, rfl, rfl⟩
    | ticker =>
      have hf : (internetAvailable E q w).1 = false := by
        unfold internetAvailable
        cases hd : E.dial w.dials with
        | none => exact absurd hd (hoff _)
        | some err => rfl
      have ht := (tick_offline L E q w).1 hf
      obtain ⟨w1, hw1, h1, h2, h3, h4⟩ := ih { w with dials := w.dials + 1 }
      exact ⟨w1, by simp only [worker, ht, hw1], h1, h2, h3, h4⟩

/-- C10. On a worker tick whose connectivity probe fails, no request is made
and no file is touched: the world only counts one probe more.  The drain pass
runs on the ticks whose probe succeeds, and only on those: whenever a tick
adds a request or changes the queue file, its probe had succeeded.  Over the
whole worker loop, while every probe fails, the queue file and the request log
stay as they were. -/
theorem tick_gated_by_probe (L : Lib) (E : Env) (q : Queue) (w : World) :
    ((internetAvailable E q w).1 = false →
      tick L E q w = some { w with dials := w.dials + 1 }) ∧
    ((internetAvailable E q w).1 = true →
      tick L E q w = processQueue L E q { w with dials := w.dials + 1 }) ∧
    (∀ w1, tick L E q w = some w1 →
      (w1.requests ≠ w.requests ∨ w1.queueFile ≠ w.queueFile) →
      (internetAvailable E q w).1 = true) ∧
    ((internetAvailable E q w).1 = true ↔ E.dial w.dials = none) ∧
    ((∀ n, E.dial n ≠ none) → ∀ evs : List Event, ∃ w1, worker L E q evs w = some w1 ∧
      w1.queueFile = w.queueFile ∧ w1.requests = w.requests) := by
  refine ⟨(tick_offline L E q w).1, (tick_offline L E q w).2, ?_, ?_, ?_⟩
  · intro w1 h1 hne
    cases hp : (internetAvailable E q w).1 with
    | true => rfl
    | false =>
      rw [(tick_offline L E q w).1 hp] at h1
      simp only [Option.some.injEq] at h1
      subst h1
      simp at hne
  · unfold internetAvailable
    cases hd : E.dial w.dials <;> simp
  · intro hoff evs
    obtain ⟨w1, h1, h2, h3, _⟩ := worker_offline L E q hoff evs w
    exact ⟨w1, h1, h2, h3⟩

set_option maxRecDepth 100000 in
/-- Witness of C10: the queue file holds `A`, `B`, `C` and the probe fails; the
tick leaves the world as it was but for the probe count, and three more ticks
do the same. -/
theorem tick_gated_by_probe_witness :
    (internetAvailable envOffline exQueue worldABC).1 = false ∧
    tick goLib envOffline exQueue worldABC = some { worldABC with dials := 1 } ∧
    ∃ w1, worker goLib envOffline exQueue [.ticker, .ticker, .ticker] worldABC = some w1 ∧
      w1.queueFile = worldABC.queueFile ∧ w1.requests = [] := by
  have h := tick_gated_by_probe goLib envOffline exQueue worldABC
  refine ⟨rfl, h.1 rfl, ?_⟩
  obtain ⟨w1, h1, h2, h3⟩ := h.2.2.2.2 (fun n => by simp [envOffline])
    [.ticker, .ticker, .ticker]
  exact ⟨w1, h1, h2, h3⟩

theorem FetchItems_fallback (L : Lib) (E : Env) (c : Client) (w : World) (req : Request)
    (hreq : itemsRequest L c = some req)
    (hf : ReadFails (fun b => (L.unmarshalItems b).2) (E.respond w.requests.length req)) :
    FetchItems L E c w =
      some (loadItemsCache L c w, { w with requests := w.requests ++ [req] }) := by
  unfold FetchItems
  rw [hreq]
  simp only [Do]
  cases ho : E.respond w.requests.length req with
  | transportError err => rfl
  | response status body =>
    rw [ho] at hf
    simp only [ReadFails] at hf
    cases hu : L.unmarshalItems body with
    | mk items uerr =>
      cases uerr with
      | some e => simp only [hu]; rfl
      | none =>
        rw [hu] at hf
        have hs : status ≥ 400 := by
          rcases hf with h | h
          · exact h
          · exact absurd rfl h
        simp only [hu, hs, if_true]
        rfl

theorem FetchLocations_fallback (L : Lib) (E : Env) (c : Client) (w : World) (req : Request)
    (hreq : locationsRequest L c = some req)
    (hf : ReadFails (fun b => (L.unmarshalLocations b).2) (E.respond w.requests.length req)) :
    FetchLocations L E c w =
      some (loadLocationsCache L c w, { w with requests := w.requests ++ [req] }) := by
  unfold FetchLocations
  rw [hreq]
  simp only [Do]
  cases ho : E.respond w.requests.length req with
  | transportError err => rfl
  | response status body =>
    rw [ho] at hf
    simp only [ReadFails] at hf
    cases hu : L.unmarshalLocations body with
    | mk locations uerr =>
      cases uerr with
      | some e => simp only [hu]; rfl
      | none =>
        rw [hu] at hf
        have hs : status ≥ 400 := by
          rcases hf with h | h
          · exact h
          · exact absurd rfl h
        simp only [hu, hs, if_true]
        rfl

theorem FetchItems_success (L : Lib) (E : Env) (c : Client) (w : World) (req : Request)
    (items : Slice Item) (hreq : itemsRequest L c = some req)
    (hg : ReadGives L.unmarshalItems (E.respond w.requests.length req) items) :
    FetchItems L E c w =
      some ((items, none),
        if items.len > 0 then
          (saveItemsCache L E c items { w with requests := w.requests ++ [req] }).2
        else { w with requests := w.requests ++ [req] }) := by
  unfold FetchItems
  rw [hreq]
  simp only [Do]
  cases ho : E.respond w.requests.length req with
  | transportError err => rw [ho] at hg; exact absurd hg (by simp [ReadGives])
  | response status body =>
    rw [ho] at hg
    simp only [ReadGives] at hg
    have hs : ¬ status ≥ 400 := by omega
    simp only [hg.2, hs, if_false]

theorem FetchLocations_success (L : Lib) (E : Env) (c : Client) (w : World) (req : Request)
    (locations : Slice Location) (hreq : locationsRequest L c = some req)
    (hg : ReadGives L.unmarshalLocations (E.respond w.requests.length req) locations) :
    FetchLocations L E c w =
      some ((locations, none),
        if locations.len > 0 then
          (saveLocationsCache L E c locations { w with requests := w.requests ++ [req] }).2
        else { w with requests := w.requests ++ [req] }) := by
  unfold FetchLocations
  rw [hreq]
  simp only [Do]
  cases ho : E.respond w.requests.length req with
  | transportError err => rw [ho] at hg; exact absurd hg (by simp [ReadGives])
  | response status body =>
    rw [ho] at hg
    simp only [ReadGives] at hg
    have hs : ¬ status ≥ 400 := by omega
    simp only [hg.2, hs, if_false]

/-- Every outcome is a failed read or a read that gives some value. -/
theorem ReadFails_or_ReadGives {α : Type} (decode : String → α × Option Error) (o : Outcome) :
    ReadFails (fun b => (decode b).2) o ∨ ∃ v, ReadGives decode o v := by
  cases o with
  | transportError err => exact Or.inl trivial
  | response status body =>
    by_cases hs : status ≥ 400
    · exact Or.inl (Or.inl hs)
    · cases hu : decode body with
      | mk v uerr =>
        cases uerr with
        | some e => exact Or.inl (Or.inr (by simp [hu]))
        | none => exact Or.inr ⟨v, by simp only [ReadGives]; exact ⟨by omega, hu⟩⟩

/-- C4, as the code has it.  For every outcome of the exchange of `FetchItems`,
and likewise of `FetchLocations`: if it ends in a transport error, or the
status is at least 400, or the body does not decode as the expected array, the
value returned is exactly the result of loading the cache envelope file (its
payload, or its error), and nothing but the request log changes.  An outcome
that is none of the three returns the decoded body.  Assumed: the two URLs can
be parsed, so that the requests are built. -/
theorem Fetch_failed_read_returns_cache (L : Lib) (E : Env) (c : Client) (w : World)
    (reqI reqL : Request)
    (hI : itemsRequest L c = some reqI) (hL : locationsRequest L c = some reqL) :
    (ReadFails (fun b => (L.unmarshalItems b).2) (E.respond w.requests.length reqI) →
      FetchItems L E c w =
        some (loadItemsCache L c w, { w with requests := w.requests ++ [reqI] })) ∧
    (ReadFails (fun b => (L.unmarshalLocations b).2) (E.respond w.requests.length reqL) →
      FetchLocations L E c w =
        some (loadLocationsCache L c w, { w with requests := w.requests ++ [reqL] })) ∧
    (∀ items, ReadGives L.unmarshalItems (E.respond w.requests.length reqI) items →
      (FetchItems L E c w).map Prod.fst = some (items, none)) ∧
    (∀ locations, ReadGives L.unmarshalLocations (E.respond w.requests.length reqL) locations →
      (FetchLocations L E c w).map Prod.fst = some (locations, none)) := by
  refine ⟨FetchItems_fallback L E c w reqI hI, FetchLocations_fallback L E c w reqL hL, ?_, ?_⟩
  · intro items hg
    rw [FetchItems_success L E c w reqI items hI hg]; rfl
  · intro locations hg
    rw [FetchLocations_success L E c w reqL locations hL hg]; rfl

set_option maxRecDepth 100000 in
/-- Witness of C4: status 503 with a body that would decode; the older snapshot
of the cache is returned. -/
theorem Fetch_failed_read_returns_cache_witness :
    (itemsRequest goLib exClient = some exItemsRequest ∧
      locationsRequest goLib exClient = some exLocationsRequest ∧
      ReadFails (fun b => (goLib.unmarshalItems b).2)
        ((envAnswers 503 boltBody).respond worldOldCache.requests.length exItemsRequest)) ∧
    FetchItems goLib (envAnswers 503 boltBody) exClient worldOldCache =
      some ((.of [itemWasher, itemNut, itemBolt], none),
        { worldOldCache with requests := [exItemsRequest] }) := by
  have hI : itemsRequest goLib exClient = some exItemsRequest := by decide
  have hL : locationsRequest goLib exClient = some exLocationsRequest := by decide
  have hf : ReadFails (fun b => (goLib.unmarshalItems b).2)
      ((envAnswers 503 boltBody).respond worldOldCache.requests.length exItemsRequest) :=
    Or.inl (by decide)
  refine ⟨⟨hI, hL, hf⟩, ?_⟩
  rw [(Fetch_failed_read_returns_cache goLib (envAnswers 503 boltBody) exClient worldOldCache
    exItemsRequest exLocationsRequest hI hL).1 hf]
  decide

set_option maxRecDepth 100000 in
/-- C4 as stated fails: a response with status 300, which is not a 2xx status,
and a body that decodes is not answered from the cache.  The cache holds three
older items; `FetchItems` returns the one item of the body. -/
theorem FetchItems_status_300_is_not_fallback :
    itemsRequest goLib exClient = some exItemsRequest ∧
    (envAnswers 300 boltBody).respond worldOldCache.requests.length exItemsRequest =
      .response 300 boltBody ∧
    ¬ ((200 : Int) ≤ 300 ∧ (300 : Int) < 300) ∧
    loadItemsCache goLib exClient worldOldCache =
      (.of [itemWasher, itemNut, itemBolt], none) ∧
    (FetchItems goLib (envAnswers 300 boltBody) exClient worldOldCache).map Prod.fst =
      some (.of [itemBolt], none) ∧
    (FetchItems goLib (envAnswers 300 boltBody) exClient worldOldCache).map Prod.fst ≠
      some (loadItemsCache goLib exClient worldOldCache) := by
  decide

/-- C5. A `FetchItems`, and likewise a `FetchLocations`, whose network read
succeeds with an empty result (nil or of length zero) returns that result
without error and leaves every file as it was, whatever the cache file held:
the world changes only by the request added to the log.  Assumed: the two URLs
can be parsed. -/
theorem Fetch_empty_result_keeps_cache (L : Lib) (E : Env) (c : Client) (w : World)
    (reqI reqL : Request)
    (hI : itemsRequest L c = some reqI) (hL : locationsRequest L c = some reqL) :
    (∀ items, ReadGives L.unmarshalItems (E.respond w.requests.length reqI) items →
      items.len = 0 →
      ∃ w1, FetchItems L E c w = some ((items, none), w1) ∧
        w1 = { w with requests := w.requests ++ [reqI] } ∧
        w1.itemsCache = w.itemsCache ∧ loadItemsCache L c w1 = loadItemsCache L c w) ∧
    (∀ locations, ReadGives L.unmarshalLocations (E.respond w.requests.length reqL) locations →
      locations.len = 0 →
      ∃ w1, FetchLocations L E c w = some ((locations, none), w1) ∧
        w1 = { w with requests := w.requests ++ [reqL] } ∧
        w1.locationsCache = w.locationsCache ∧
        loadLocationsCache L c w1 = loadLocationsCache L c w) := by
  constructor
  · intro items hg hlen
    refine ⟨_, ?_, rfl, rfl, rfl⟩
    rw [FetchItems_success L E c w reqI items hI hg]
    simp [hlen]
  · intro locations hg hlen
    refine ⟨_, ?_, rfl, rfl, rfl⟩
    rw [FetchLocations_success L E c w reqL locations hL hg]
    simp [hlen]

set_option maxRecDepth 100000 in
/-- Witness of C5: the server answers `200` with an empty array while the
cache holds three items; the cache still holds them afterwards. -/
theorem Fetch_empty_result_keeps_cache_witness :
    (itemsRequest goLib exClient = some exItemsRequest ∧
      locationsRequest goLib exClient = some exLocationsRequest ∧
      ReadGives goLib.unmarshalItems
        ((envAnswers 200 "[]").respond worldOldCache.requests.length exItemsRequest) (.of []) ∧
      (Slice.of ([] : List Item)).len = 0) ∧
    ∃ w1, FetchItems goLib (envAnswers 200 "[]") exClient worldOldCache =
        some ((.of [], none), w1) ∧
      w1.itemsCache = worldOldCache.itemsCache ∧
      loadItemsCache goLib exClient w1 = (.of [itemWasher, itemNut, itemBolt], none) := by
  have hI : itemsRequest goLib exClient = some exItemsRequest := by decide
  have hL : locationsRequest goLib exClient = some exLocationsRequest := by decide
  have hg : ReadGives goLib.unmarshalItems
      ((envAnswers 200 "[]").respond worldOldCache.requests.length exItemsRequest) (.of []) :=
    ⟨by decide, by decide⟩
  refine ⟨⟨hI, hL, hg, rfl⟩, ?_⟩
  obtain ⟨w1, h1, _, h3, h4⟩ :=
    (Fetch_empty_result_keeps_cache goLib (envAnswers 200 "[]") exClient worldOldCache
      exItemsRequest exLocationsRequest hI hL).1 (.of []) hg rfl
  refine ⟨w1, h1, h3, ?_⟩
  rw [h4]; decide

/-- C6. When the items cache file holds an envelope whose payload is the list
`xs`, a `FetchItems` whose exchange ends in a transport error returns exactly
`xs` (hence the same items in the same order and number) and no error.
Assumed: the URL can be parsed and the cache file can be read. -/
theorem FetchItems_transport_error_returns_cached (L : Lib) (E : Env) (c : Client)
    (w : World) (req : Request) (err : Error) (data : String) (ts : Int) (xs : Slice Item)
    (hreq : itemsRequest L c = some req)
    (ho : E.respond w.requests.length req = .transportError err)
    (hc : w.itemsCache.content = some data)
    (hr : w.itemsCache.readable = true)
    (hdec : L.unmarshalCachedItems data = ({ Timestamp := ts, Items := xs }, none)) :
    (FetchItems L E c w).map Prod.fst = some (xs, none) ∧
      ∀ r w1, FetchItems L E c w = some (r, w1) →
        r.1.toList = xs.toList ∧ r.1.len = xs.len ∧ r.2 = none := by
  have hf : ReadFails (fun b => (L.unmarshalItems b).2) (E.respond w.requests.length req) := by
    rw [ho]; trivial
  have hload : loadItemsCache L c w = (xs, none) := by
    simp [loadItemsCache, File.read, hc, hr, hdec]
  have h := FetchItems_fallback L E c w req hreq hf
  rw [hload] at h
  refine ⟨by rw [h]; rfl, ?_⟩
  intro r w1 h1
  rw [h] at h1
  simp only [Option.some.injEq, Prod.mk.injEq] at h1
  rw [← h1.1]
  exact ⟨rfl, rfl, rfl⟩

set_option maxRecDepth 100000 in
/-- Witness of C6: the cache holds three items and the network is down. -/
theorem FetchItems_transport_error_returns_cached_witness :
    (itemsRequest goLib exClient = some exItemsRequest ∧
      envOffline.respond worldOldCache.requests.length exItemsRequest =
        .transportError (.transport "dial tcp: network is unreachable") ∧
      worldOldCache.itemsCache.content = some (goLib.marshalIndentCachedItems
        { Timestamp := 1690000000, Items := .of [itemWasher, itemNut, itemBolt] }).1 ∧
      worldOldCache.itemsCache.readable = true ∧
      goLib.unmarshalCachedItems (goLib.marshalIndentCachedItems
        { Timestamp := 1690000000, Items := .of [itemWasher, itemNut, itemBolt] }).1 =
        ({ Timestamp := 1690000000, Items := .of [itemWasher, itemNut, itemBolt] }, none)) ∧
    (FetchItems goLib envOffline exClient worldOldCache).map Prod.fst =
      some (.of [itemWasher, itemNut, itemBolt], none) := by
  have hI : itemsRequest goLib exClient = some exItemsRequest := by decide
  have hd : goLib.unmarshalCachedItems (goLib.marshalIndentCachedItems
      { Timestamp := 1690000000, Items := .of [itemWasher, itemNut, itemBolt] }).1 =
      ({ Timestamp := 1690000000, Items := .of [itemWasher, itemNut, itemBolt] }, none) := by
    decide
  exact ⟨⟨hI, rfl, rfl, rfl, hd⟩,
    (FetchItems_transport_error_returns_cached goLib envOffline exClient worldOldCache
      exItemsRequest _ _ 1690000000 _ hI rfl rfl rfl hd).1⟩

theorem saveItemsCache_writable (L : Lib) (E : Env) (c : Client) (items : Slice Item)
    (w : World) (hw : w.itemsCache.writable = true)
    (hm : (L.marshalIndentCachedItems { Timestamp := E.now w.clockReads, Items := items }).2
      = none) :
    saveItemsCache L E c items w =
      (none, { w with
        clockReads := w.clockReads + 1
        itemsCache := { w.itemsCache with content := some (L.marshalIndentCachedItems
          { Timestamp := E.now w.clockReads, Items := items }).1 } }) := by
  unfold saveItemsCache nowUnix
  cases hx : L.marshalIndentCachedItems { Timestamp := E.now w.clockReads, Items := items } with
  | mk data merr =>
    rw [hx] at hm
    simp only at hm
    subst hm
    simp [hx, File.write, hw]

theorem loadItemsCache_usable (L : Lib) (c : Client) (w : World)
    (hu : ItemsCacheUsable L w.itemsCache) : (loadItemsCache L c w).2 = none := by
  obtain ⟨hr, data, hc, hd⟩ := hu
  unfold loadItemsCache
  simp only [File.read, hc, hr, if_true]
  cases hx : L.unmarshalCachedItems data with
  | mk e uerr =>
    rw [hx] at hd
    simp only at hd
    subst hd
    rfl

theorem loadItemsCache_error_unusable (L : Lib) (c : Client) (w : World) (r : Slice Item)
    (err : Error) (h : loadItemsCache L c w = (r, some err)) :
    ItemsCacheUnusable L w.itemsCache := by
  unfold loadItemsCache at h
  cases hc : w.itemsCache.content with
  | none => exact Or.inl hc
  | some data =>
    cases hr : w.itemsCache.readable with
    | false => exact Or.inr (Or.inl hr)
    | true =>
      refine Or.inr (Or.inr ⟨data, hc, ?_⟩)
      simp only [File.read, hc, hr, if_true] at h
      cases hx : L.unmarshalCachedItems data with
      | mk e uerr =>
        cases uerr with
        | none => rw [hx] at h; simp at h
        | some e2 => simp

/-- A usable cache stays usable over a `FetchItems`, which then returns no
error. -/
theorem FetchItems_keeps_usable (L : Lib) (E : Env) (c : Client) (req : Request)
    (hreq : itemsRequest L c = some req)
    (hE : ∀ n k status body, E.respond n req = .response status body →
      ItemsReloads L { Timestamp := E.now k, Items := (L.unmarshalItems body).1 })
    (w : World) (hu : ItemsCacheUsable L w.itemsCache) :
    ∃ r w1, FetchItems L E c w = some (r, w1) ∧ r.2 = none ∧
      ItemsCacheUsable L w1.itemsCache := by
  rcases ReadFails_or_ReadGives L.unmarshalItems (E.respond w.requests.length req) with
    hf | ⟨items, hg⟩
  · exact ⟨_, _, FetchItems_fallback L E c w req hreq hf, loadItemsCache_usable L c w hu, hu⟩
  · refine ⟨_, _, FetchItems_success L E c w req items hreq hg, rfl, ?_⟩
    by_cases hlen : items.len > 0
    · simp only [hlen, if_true]
      cases ho : E.respond w.requests.length req with
      | transportError err => rw [ho] at hg; exact absurd hg (by simp [ReadGives])
      | response status body =>
        rw [ho] at hg
        have hrel := hE w.requests.length w.clockReads status body ho
        rw [hg.2] at hrel
        cases hw : w.itemsCache.writable with
        | true =>
          rw [saveItemsCache_writable L E c items { w with requests := w.requests ++ [req] }
            hw hrel.1]
          exact ⟨hu.1, _, rfl, hrel.2⟩
        | false =>
          have : (saveItemsCache L E c items
              { w with requests := w.requests ++ [req] }).2.itemsCache = w.itemsCache := by
            unfold saveItemsCache nowUnix
            cases hx : L.marshalIndentCachedItems
                { Timestamp := E.now w.clockReads, Items := items } with
            | mk data merr =>
              cases merr with
              | some e => simp [hx]
              | none => simp [hx, File.write, hw]
          rw [this]; exact hu
    · simp only [hlen, if_false]; exact hu

theorem fetchItemsTimes_usable (L : Lib) (E : Env) (c : Client) (req : Request)
    (hreq : itemsRequest L c = some req)
    (hE : ∀ n k status body, E.respond n req = .response status body →
      ItemsReloads L { Timestamp := E.now k, Items := (L.unmarshalItems body).1 }) :
    ∀ (n : Nat) (w : World), ItemsCacheUsable L w.itemsCache →
      ∃ rs w2, fetchItemsTimes L E c n w = some (rs, w2) ∧ rs.length = n ∧
        ∀ r ∈ rs, r.2 = none := by
  intro n
  induction n with
  | zero => intro w _; exact ⟨[], w, rfl, rfl, by simp⟩
  | succ n ih =>
    intro w hu
    obtain ⟨r, w1, hf, hr, hu1⟩ := FetchItems_keeps_usable L E c req hreq hE w hu
    obtain ⟨rs, w2, hrs, hl, hall⟩ := ih w1 hu1
    refine ⟨r :: rs, w2, by simp only [fetchItemsTimes, hf, hrs], by simp [hl], ?_⟩
    intro x hx
    rcases List.mem_cons.mp hx with h | h
    · rw [h]; exact hr
    · exact hall x h

/-- C7, as the code has it.  In every sequence of `FetchItems` calls, a call
returns an error only if its own network read failed and the cache file is then
absent, unreadable or corrupt; the error is the one of loading the cache.  Once
a fetch has succeeded over the network with a result that is not empty and has
written the cache, no later fetch returns an error, whatever the network then
does.  Assumed: the URL can be parsed; for the second part, the cache file can
be written and read and the library reads back without error the envelopes it
writes for the responses of this environment. -/
theorem FetchItems_error_only_without_cache (L : Lib) (E : Env) (c : Client) (req : Request)
    (hreq : itemsRequest L c = some req) :
    (∀ w r err w1, FetchItems L E c w = some ((r, some err), w1) →
      ReadFails (fun b => (L.unmarshalItems b).2) (E.respond w.requests.length req) ∧
        ItemsCacheUnusable L w.itemsCache ∧ loadItemsCache L c w = (r, some err)) ∧
    ((∀ n k status body, E.respond n req = .response status body →
        ItemsReloads L { Timestamp := E.now k, Items := (L.unmarshalItems body).1 }) →
      ∀ w items, ReadGives L.unmarshalItems (E.respond w.requests.length req) items →
        items.len > 0 → w.itemsCache.writable = true → w.itemsCache.readable = true →
        ∃ w1, FetchItems L E c w = some ((items, none), w1) ∧
          ∀ n, ∃ rs w2, fetchItemsTimes L E c n w1 = some (rs, w2) ∧ rs.length = n ∧
            ∀ r ∈ rs, r.2 = none) := by
  constructor
  · intro w r err w1 h
    rcases ReadFails_or_ReadGives L.unmarshalItems (E.respond w.requests.length req) with
      hf | ⟨items, hg⟩
    · have h2 := FetchItems_fallback L E c w req hreq hf
      rw [h2] at h
      simp only [Option.some.injEq, Prod.mk.injEq] at h
      exact ⟨hf, loadItemsCache_error_unusable L c w r err h.1, h.1⟩
    · have h2 := FetchItems_success L E c w req items hreq hg
      rw [h2] at h
      simp at h
  · intro hE w items hg hlen hw hr
    refine ⟨_, FetchItems_success L E c w req items hreq hg, ?_⟩
    intro n
    apply fetchItemsTimes_usable L E c req hreq hE n
    simp only [hlen, if_true]
    cases ho : E.respond w.requests.length req with
    | transportError err => rw [ho] at hg; exact absurd hg (by simp [ReadGives])
    | response status body =>
      rw [ho] at hg
      have hrel := hE w.requests.length w.clockReads status body ho
      rw [hg.2] at hrel
      rw [saveItemsCache_writable L E c items { w with requests := w.requests ++ [req] }
        hw hrel.1]
      exact ⟨hr, _, rfl, hrel.2⟩

set_option maxRecDepth 100000 in
/-- Witness of C7: one fetch gets `bolt` from the server and writes the cache;
the network then goes down, and the next three fetches return no error. -/
theorem FetchItems_error_only_without_cache_witness :
    itemsRequest goLib exClient = some exItemsRequest ∧
    ∃ w1, FetchItems goLib (envThenDown boltBody) exClient worldEmpty =
        some ((.of [itemBolt], none), w1) ∧
      ∃ rs w2, fetchItemsTimes goLib (envThenDown boltBody) exClient 3 w1 = some (rs, w2) ∧
        rs.length = 3 ∧ ∀ r ∈ rs, r.2 = none := by
  have hI : itemsRequest goLib exClient = some exItemsRequest := by decide
  have hE : ∀ n k status body,
      (envThenDown boltBody).respond n exItemsRequest = .response status body →
      ItemsReloads goLib
        (CachedItems.mk ((envThenDown boltBody).now k) (goLib.unmarshalItems body).1) := by
    intro n k status body h
    by_cases hn : n = 0
    · simp only [envThenDown, hn, if_true, Outcome.response.injEq] at h
      rw [← h.2]
      refine ⟨rfl, ?_⟩
      show (goLib.unmarshalCachedItems (goLib.marshalIndentCachedItems
        (CachedItems.mk 1700000000 (goLib.unmarshalItems boltBody).1)).1).2 = none
      decide
    · simp [envThenDown, hn] at h
  have hg : ReadGives goLib.unmarshalItems
      ((envThenDown boltBody).respond worldEmpty.requests.length exItemsRequest)
      (.of [itemBolt]) := ⟨by decide, by decide⟩
  obtain ⟨w1, h1, h2⟩ :=
    (FetchItems_error_only_without_cache goLib (envThenDown boltBody) exClient exItemsRequest
      hI).2 hE worldEmpty (.of [itemBolt]) hg (by decide) rfl rfl
  exact ⟨hI, w1, h1, h2 3⟩

set_option maxRecDepth 100000 in
/-- C7 as stated fails: the first fetch succeeds over the network with an empty
array, which is not written to the cache; the network then goes down and the
second fetch returns the error of the absent cache file. -/
theorem FetchItems_error_after_empty_success :
    itemsRequest goLib exClient = some exItemsRequest ∧
    (envThenDown "[]").respond 0 exItemsRequest = .response 200 "[]" ∧
    goLib.unmarshalItems "[]" = (.of [], none) ∧
    (fetchItemsTimes goLib (envThenDown "[]") exClient 2 worldEmpty).map Prod.fst =
      some [(.of [], none), (.nil, some .notExist)] := by
  decide

/-- C8. After a `FetchItems` whose network read succeeds with a result `items`
that is not empty, the cache file holds the envelope made of the clock reading
and `items`, whatever it held before, and `items` is returned.  A second fetch
with the same response leaves an envelope with the same payload; only the
timestamp is read anew.  Assumed: the URL can be parsed, the cache file can be
written and the library reads back the envelopes it writes. -/
theorem FetchItems_success_overwrites_cache (L : Lib) (E : Env) (c : Client) (w : World)
    (req : Request) (items : Slice Item)
    (hreq : itemsRequest L c = some req)
    (hg : ReadGives L.unmarshalItems (E.respond w.requests.length req) items)
    (hlen : items.len > 0)
    (hw : w.itemsCache.writable = true)
    (hrt : ItemsRoundTrips L { Timestamp := E.now w.clockReads, Items := items }) :
    ∃ w1, FetchItems L E c w = some ((items, none), w1) ∧
      w1.itemsCache.content = some (L.marshalIndentCachedItems
        { Timestamp := E.now w.clockReads, Items := items }).1 ∧
      cachedItemsOf L w1.itemsCache =
        some { Timestamp := E.now w.clockReads, Items := items } ∧
      (ReadGives L.unmarshalItems (E.respond (w.requests.length + 1) req) items →
        ItemsRoundTrips L { Timestamp := E.now (w.clockReads + 1), Items := items } →
        ∃ w2, FetchItems L E c w1 = some ((items, none), w2) ∧
          cachedItemsOf L w2.itemsCache =
            some { Timestamp := E.now (w.clockReads + 1), Items := items } ∧
          (cachedItemsOf L w2.itemsCache).map (fun e => e.Items) =
            (cachedItemsOf L w1.itemsCache).map (fun e => e.Items)) := by
  have hof : ∀ (f : File) (e : CachedItems), ItemsRoundTrips L e →
      f.content = some (L.marshalIndentCachedItems e).1 → cachedItemsOf L f = some e := by
    intro f e he hc
    simp [cachedItemsOf, hc, he.2]
  have h1 := FetchItems_success L E c w req items hreq hg
  simp only [hlen, if_true] at h1
  rw [saveItemsCache_writable L E c items { w with requests := w.requests ++ [req] }
    hw hrt.1] at h1
  refine ⟨_, h1, rfl, hof _ _ hrt rfl, ?_⟩
  intro hg2 hrt2
  have h2 := FetchItems_success L E c
    { w with
      requests := w.requests ++ [req]
      clockReads := w.clockReads + 1
      itemsCache := { w.itemsCache with content := some (L.marshalIndentCachedItems
        { Timestamp := E.now w.clockReads, Items := items }).1 } }
    req items hreq (by simpa using hg2)
  simp only [hlen, if_true] at h2
  rw [saveItemsCache_writable L E c items
    { w with
      requests := w.requests ++ [req] ++ [req]
      clockReads := w.clockReads + 1
      itemsCache := { w.itemsCache with content := some (L.marshalIndentCachedItems
        { Timestamp := E.now w.clockReads, Items := items }).1 } }
    hw hrt2.1] at h2
  refine ⟨_, h2, hof _ _ hrt2 rfl, ?_⟩
  rw [hof _ _ hrt2 rfl, hof _ _ hrt rfl]
  rfl

set_option maxRecDepth 100000 in
/-- Witness of C8: the cache holds three older items and the server answers
twice with `bolt`; both times the cache ends up holding `bolt` alone, with the
timestamp of the fetch. -/
theorem FetchItems_success_overwrites_cache_witness :
    (itemsRequest goLib exClient = some exItemsRequest ∧
      ReadGives goLib.unmarshalItems
        ((envAnswers 200 boltBody).respond worldOldCache.requests.length exItemsRequest)
        (.of [itemBolt]) ∧
      (Slice.of [itemBolt]).len > 0 ∧
      worldOldCache.itemsCache.writable = true ∧
      ItemsRoundTrips goLib (CachedItems.mk
        ((envAnswers 200 boltBody).now worldOldCache.clockReads) (.of [itemBolt]))) ∧
    ∃ w1 w2, FetchItems goLib (envAnswers 200 boltBody) exClient worldOldCache =
        some ((.of [itemBolt], none), w1) ∧
      cachedItemsOf goLib w1.itemsCache =
        some { Timestamp := 1700000000, Items := .of [itemBolt] } ∧
      FetchItems goLib (envAnswers 200 boltBody) exClient w1 =
        some ((.of [itemBolt], none), w2) ∧
      cachedItemsOf goLib w2.itemsCache =
        some { Timestamp := 1700000001, Items := .of [itemBolt] } := by
  have hI : itemsRequest goLib exClient = some exItemsRequest := by decide
  have hg : ReadGives goLib.unmarshalItems
      ((envAnswers 200 boltBody).respond worldOldCache.requests.length exItemsRequest)
      (.of [itemBolt]) := ⟨by decide, by decide⟩
  have hrt : ItemsRoundTrips goLib (CachedItems.mk
      ((envAnswers 200 boltBody).now worldOldCache.clockReads) (.of [itemBolt])) :=
    ⟨rfl, by decide⟩
  have hrt2 : ItemsRoundTrips goLib (CachedItems.mk
      ((envAnswers 200 boltBody).now (worldOldCache.clockReads + 1)) (.of [itemBolt])) :=
    ⟨rfl, by decide⟩
  refine ⟨⟨hI, hg, by decide, rfl, hrt⟩, ?_⟩
  obtain ⟨w1, h1, _, h3, h4⟩ :=
    FetchItems_success_overwrites_cache goLib (envAnswers 200 boltBody) exClient worldOldCache
      exItemsRequest (.of [itemBolt]) hI hg (by decide) rfl hrt
  obtain ⟨w2, h5, h6, _⟩ := h4 hg hrt2
  exact ⟨w1, w2, h1, h3, h5, h6⟩

/-- C15. `Check` returns true if and only if its request, the `GET` of the
items with `limit=1`, is built, the exchange ends without a transport error
and the status `s` of the response satisfies `200 ≤ s < 300`.  For every other
outcome it returns false: when the request cannot be built (no exchange is
made), on a transport error, and on any other status.  `Check` is a total
function to a boolean: it returns no error and has no failing branch. -/
theorem Check_true_iff (L : Lib) (E : Env) (c : Client) (w : World) :
    ((Check L E c w).1 = true ↔
      ∃ req status body, checkRequest L c = some req ∧
        E.respond w.requests.length req = .response status body ∧
        200 ≤ status ∧ status < 300) ∧
    (checkRequest L c = none → Check L E c w = (false, w)) ∧
    (∀ req, checkRequest L c = some req →
      req.method = "GET" ∧ req.url = c.BaseURL ++ "/rest/v1/items?select=*&limit=1" ∧
      (Check L E c w).2 = { w with requests := w.requests ++ [req] } ∧
      (∀ err, E.respond w.requests.length req = .transportError err →
        (Check L E c w).1 = false) ∧
      (∀ status body, E.respond w.requests.length req = .response status body →
        ¬ (200 ≤ status ∧ status < 300) → (Check L E c w).1 = false)) := by
  unfold Check checkRequest
  cases hn : newRequest L "GET" (c.BaseURL ++ "/rest/v1/items?select=*&limit=1") none with
  | none => simp
  | some req0 =>
    have hm : (setAuthHeaders c req0).method = "GET" ∧
        (setAuthHeaders c req0).url = c.BaseURL ++ "/rest/v1/items?select=*&limit=1" := by
      unfold newRequest at hn
      by_cases hv : L.validURL (c.BaseURL ++ "/rest/v1/items?select=*&limit=1") = true
      · simp only [hv, if_true, Option.some.injEq] at hn
        rw [← hn]
        exact ⟨rfl, rfl⟩
      · simp [hv] at hn
    simp only [Do, Option.some.injEq, reduceCtorEq, false_implies, true_and]
    cases ho : E.respond w.requests.length (setAuthHeaders c req0) with
    | transportError err =>
      refine ⟨?_, ?_⟩
      · constructor
        · intro h; simp at h
        · rintro ⟨req, status, body, hreq, hresp, _⟩
          subst hreq; rw [ho] at hresp; cases hresp
      · intro req hreq
        subst hreq
        refine ⟨hm.1, hm.2, rfl, ?_, ?_⟩
        · intro _ _; rfl
        · intro status body h; rw [ho] at h; cases h
    | response status body =>
      refine ⟨?_, ?_⟩
      · constructor
        · intro h
          have h2 : status ≥ 200 ∧ status < 300 := by simpa using h
          exact ⟨_, status, body, rfl, ho, h2.1, h2.2⟩
        · rintro ⟨req, s2, b2, hreq, hresp, h1, h2⟩
          subst hreq; rw [ho] at hresp; cases hresp
          simp [h1, h2]
      · intro req hreq
        subst hreq
        refine ⟨hm.1, hm.2, rfl, ?_, ?_⟩
        · intro err h; rw [ho] at h; cases h
        · intro s2 b2 h hn2
          rw [ho] at h; cases h
          simpa using hn2

/-- Witness of C15: a status of 204 gives true; a transport error, a status of
404 and a base URL that cannot be parsed give false. -/
theorem Check_true_iff_witness :
    (Check goLib (envAnswers 204 "") exClient worldEmpty).1 = true ∧
    (Check goLib envOffline exClient worldEmpty).1 = false ∧
    (Check goLib (envAnswers 404 "[]") exClient worldEmpty).1 = false ∧
    Check goLib (envAnswers 200 "[]") badClient worldEmpty = (false, worldEmpty) := by
  refine ⟨?_, by decide, by decide, ?_⟩
  · exact (Check_true_iff goLib (envAnswers 204 "") exClient worldEmpty).1.mpr
      ⟨exCheckRequest, 204, "", by decide, rfl, by decide, by decide⟩
  · exact (Check_true_iff goLib (envAnswers 200 "[]") badClient worldEmpty).2.1 (by decide)

/-- C11, as the code has it.  A drain pass over a loaded queue that is not
empty ends, for every assignment of send outcomes, by writing the rebuilt
sequence to the queue file, also when the rebuilt sequence is empty: the file
then exists, its text is the serialisation of the rebuilt slice, and it holds
the rebuilt sequence.  A pass over an empty loaded queue returns at once: the
world, and so the queue file, stays as it was.  Assumed: the commit URL can be
parsed, the file can be written and the library reads back the text it writes
for the rebuilt slice. -/
theorem processQueue_writes_rebuilt (L : Lib) (E : Env) (q : Queue) (w : World)
    (hurl : L.validURL (q.api.BaseURL ++ "/rest/v1/commits") = true)
    (hw : w.queueFile.writable = true)
    (hrt : QueueRoundTrips L
      (Slice.collect (failures L E q.api w.requests.length (loadQueue L q w).toList))) :
    ((loadQueue L q w).len = 0 → processQueue L E q w = some w) ∧
    ((loadQueue L q w).len ≠ 0 →
      ∃ w1, processQueue L E q w = some w1 ∧
        w1.queueFile.content = some (L.marshalIndentQueue (Slice.collect
          (failures L E q.api w.requests.length (loadQueue L q w).toList))).1 ∧
        HoldsQueue L w1.queueFile
          (failures L E q.api w.requests.length (loadQueue L q w).toList) ∧
        (failures L E q.api w.requests.length (loadQueue L q w).toList = [] →
          w1.queueFile.content = some (L.marshalIndentQueue Slice.nil).1 ∧
          HoldsQueue L w1.queueFile [])) := by
  constructor
  · intro h0
    simp [processQueue, h0]
  · intro hne
    obtain ⟨added, hd, _⟩ := drain_eq L E q hurl (loadQueue L q w).toList .nil w
    rw [Slice.extend_nil] at hd
    have hp : processQueue L E q w = some (saveQueue L q
        (Slice.collect (failures L E q.api w.requests.length (loadQueue L q w).toList))
        { w with requests := w.requests ++ added }) := by
      simp only [processQueue, hne, if_false, hd]
    have hsave := saveQueue_writable L q
      (Slice.collect (failures L E q.api w.requests.length (loadQueue L q w).toList))
      { w with requests := w.requests ++ added } hw
    have hcollect : ∀ xs : List Commit, (Slice.collect xs).toList = xs := by
      intro xs; cases xs <;> rfl
    have hcontent : (saveQueue L q
        (Slice.collect (failures L E q.api w.requests.length (loadQueue L q w).toList))
        { w with requests := w.requests ++ added }).queueFile.content =
        some (L.marshalIndentQueue (Slice.collect
          (failures L E q.api w.requests.length (loadQueue L q w).toList))).1 := by
      rw [hsave]
    have hholds : HoldsQueue L (saveQueue L q
        (Slice.collect (failures L E q.api w.requests.length (loadQueue L q w).toList))
        { w with requests := w.requests ++ added }).queueFile
        (failures L E q.api w.requests.length (loadQueue L q w).toList) :=
      ⟨_, _, hcontent, hrt, hcollect _⟩
    refine ⟨_, hp, hcontent, hholds, ?_⟩
    intro hnil
    obtain ⟨data, s, h1, h2, h3⟩ := hholds
    exact ⟨by rw [hcontent, hnil]; rfl, data, s, h1, h2, h3.trans hnil⟩

set_option maxRecDepth 100000 in
/-- Witness of C11: the queue file holds `A` and the send succeeds; the file
exists afterwards and holds the empty sequence. -/
theorem processQueue_writes_rebuilt_witness :
    (goLib.validURL (exQueue.api.BaseURL ++ "/rest/v1/commits") = true ∧
      worldA.queueFile.writable = true ∧
      QueueRoundTrips goLib (Slice.collect (failures goLib (envAnswers 201 "[]") exQueue.api
        worldA.requests.length (loadQueue goLib exQueue worldA).toList))) ∧
    ∃ w1, processQueue goLib (envAnswers 201 "[]") exQueue worldA = some w1 ∧
      w1.queueFile.content.isSome = true ∧ HoldsQueue goLib w1.queueFile [] := by
  have h1 : goLib.validURL (exQueue.api.BaseURL ++ "/rest/v1/commits") = true := by decide
  have h3 : QueueRoundTrips goLib (Slice.collect (failures goLib (envAnswers 201 "[]")
      exQueue.api worldA.requests.length (loadQueue goLib exQueue worldA).toList)) := by
    unfold QueueRoundTrips; decide
  refine ⟨⟨h1, rfl, h3⟩, ?_⟩
  obtain ⟨w1, hp, hc, _, hnil⟩ :=
    (processQueue_writes_rebuilt goLib (envAnswers 201 "[]") exQueue worldA h1 rfl h3).2
      (by decide)
  exact ⟨w1, hp, by rw [hc]; rfl, (hnil (by decide)).2⟩

/-- C11 as stated fails for the empty loaded queue: with no queue file, the
pass returns before any write and the file is still absent afterwards. -/
theorem processQueue_empty_queue_writes_nothing :
    (loadQueue goLib exQueue worldEmpty).len = 0 ∧
    processQueue goLib (envAnswers 201 "[]") exQueue worldEmpty = some worldEmpty ∧
    worldEmpty.queueFile.content = none := by
  decide

set_option maxRecDepth 100000 in
/-- C12 at the failing input.  The queue file holds the one commit of
device `D1` at `A1` with delta `-3` for item `42`, and the server acknowledges it with status 201.  After the pass
the text of the file is `null`, the serialisation of the nil slice the loop is
left with; the empty JSON array `[]` is what the library writes for an empty
slice that is not nil.  After a `SubmitCommit` the text does start a JSON
array. -/
theorem processQueue_all_sent_writes_null :
    loadQueue goLib exQueue worldA = .of [commitA] ∧
    (processQueue goLib (envAnswers 201 "[]") exQueue worldA).map
      (fun w1 => w1.queueFile.content) = some (some "null") ∧
    (goLib.marshalIndentQueue (.of [])).1 = "[]" ∧
    (SubmitCommit goLib exQueue "D1" "A1" (-3) 42 worldEmpty).queueFile.content =
      some (goLib.marshalIndentQueue (.of [commitA])).1 ∧
    (goLib.marshalIndentQueue (.of [commitA])).1.data.head? = some '[' := by
  decide

/-- Where `loadQueue` does return the empty sequence: the file is absent, or
cannot be read, or `json.Unmarshal` leaves the target empty (as it does for a
text that is not JSON and for a text that is not an array).  A `SubmitCommit`
then writes the serialisation of the one new commit. -/
theorem loadQueue_empty_cases (L : Lib) (q : Queue) (w : World)
    (h : w.queueFile.content = none ∨ w.queueFile.readable = false ∨
      ∃ data, w.queueFile.content = some data ∧ (L.unmarshalQueue data).1.len = 0) :
    (loadQueue L q w).toList = [] ∧
      ∀ deviceID location delta itemID, w.queueFile.writable = true →
        (SubmitCommit L q deviceID location delta itemID w).queueFile.content =
          some (L.marshalIndentQueue (.of [Commit.mk deviceID location delta itemID])).1 := by
  have hl : (loadQueue L q w).toList = [] := by
    rcases h with h | h | ⟨data, hc, hd⟩
    · simp [loadQueue, File.isNotExist, h, Slice.toList]
    · cases hc : w.queueFile.content with
      | none => simp [loadQueue, File.isNotExist, hc, Slice.toList]
      | some data => simp [loadQueue, File.isNotExist, File.read, hc, h, Slice.toList]
    · cases hr : w.queueFile.readable with
      | false => simp [loadQueue, File.isNotExist, File.read, hc, hr, Slice.toList]
      | true =>
        rw [loadQueue_of_content L q w data hc hr]
        exact List.length_eq_zero.mp hd
  refine ⟨hl, ?_⟩
  intro deviceID location delta itemID hw
  unfold SubmitCommit
  simp only [Slice.append, hl, List.nil_append]
  rw [saveQueue_writable L q _ _ hw]

set_option maxRecDepth 100000 in
/-- C14 at the failing input.  The queue file holds an array whose one entry
carries a string where the integer `delta` is expected.  `json.Unmarshal`
reports an error, which `loadQueue` discards, and leaves the entry decoded as
far as it goes: `loadQueue` returns one commit with `delta` zero, and a
following `SubmitCommit` of `B` leaves the file holding that commit and `B`. -/
theorem loadQueue_damaged_entry_kept :
    (goLib.unmarshalQueue damagedQueueText).2 ≠ none ∧
    loadQueue goLib exQueue worldDamaged =
      .of [{ DeviceID := "D1", Location := "A1", Delta := 0, ItemID := 42 }] ∧
    loadQueue goLib exQueue (SubmitCommit goLib exQueue "D1" "B7" 5 7 worldDamaged) =
      .of [{ DeviceID := "D1", Location := "A1", Delta := 0, ItemID := 42 }, commitB] ∧
    loadQueue goLib exQueue (SubmitCommit goLib exQueue "D1" "B7" 5 7 worldDamaged) ≠
      .of [commitB] := by
  decide

theorem Contains_sublist (sub : List Nat) : ∀ s : List Nat, Contains s sub = true →
    sub.Sublist s := by
  intro s
  induction s with
  | nil =>
    intro h
    simp only [Contains, List.isPrefixOf_iff_prefix] at h
    exact h.sublist
  | cons b rest ih =>
    intro h
    simp only [Contains, Bool.or_eq_true, List.isPrefixOf_iff_prefix] at h
    rcases h with h | h
    · exact h.sublist
    · exact (ih h).cons b

theorem sublist_drop_head_of_not_mem {α : Type} (l rest : List α) (x : α)
    (hx : x ∉ l) (h : l.Sublist (x :: rest)) : l.Sublist rest := by
  cases h with
  | cons _ h1 => exact h1
  | cons₂ _ h1 => exact absurd (List.mem_cons_self _ _) hx

theorem sublist_drop_prefix_of_disjoint {α : Type} (l rest : List α) :
    ∀ pre : List α, (∀ x ∈ pre, x ∉ l) → l.Sublist (pre ++ rest) → l.Sublist rest := by
  intro pre
  induction pre with
  | nil => intro _ h; exact h
  | cons x pre ih =>
    intro hx h
    apply ih (fun y hy => hx y (List.mem_cons_of_mem _ hy))
    exact sublist_drop_head_of_not_mem l (pre ++ rest) x (hx x (List.mem_cons_self _ _)) h

theorem utf8_ascii (c : Char) (h : c.toNat < 128) : utf8 c = [c.toNat] := by
  simp [utf8, h]

theorem utf8_high (c : Char) (h : ¬ c.toNat < 128) : ∀ b ∈ utf8 c, 128 ≤ b := by
  intro b hb
  unfold utf8 at hb
  simp only [h, if_false] at hb
  split at hb
  · simp only [List.mem_cons, List.mem_singleton, List.not_mem_nil, or_false] at hb
    omega
  · split at hb
    · simp only [List.mem_cons, List.mem_singleton, List.not_mem_nil, or_false] at hb
      omega
    · simp only [List.mem_cons, List.mem_singleton, List.not_mem_nil, or_false] at hb
      omega

theorem bytesOf_ascii (qs : List Char) (h : ∀ c ∈ qs, c.toNat < 128) :
    bytesOf qs = qs.map Char.toNat := by
  induction qs with
  | nil => rfl
  | cons c qs ih =>
    have hc := h c (List.mem_cons_self _ _)
    have ih2 := ih (fun x hx => h x (List.mem_cons_of_mem _ hx))
    simp only [bytesOf, List.flatMap_cons, List.map_cons] at ih2 ⊢
    rw [utf8_ascii c hc, ih2]
    rfl

theorem char_eq_of_toNat_eq (a b : Char) (h : a.toNat = b.toNat) : a = b := by
  apply Char.ext
  apply UInt32.ext
  exact h

/-- ASCII characters whose bytes appear in order among the bytes of a name
appear in order among its characters. -/
theorem sublist_of_bytes_sublist : ∀ (ns qs : List Char), (∀ c ∈ qs, c.toNat < 128) →
    (qs.map Char.toNat).Sublist (bytesOf ns) → qs.Sublist ns := by
  intro ns
  induction ns with
  | nil =>
    intro qs _ h
    simp only [bytesOf, List.flatMap_nil, List.sublist_nil, List.map_eq_nil_iff] at h
    rw [h]
  | cons n ns ih =>
    intro qs hq h
    have hb : bytesOf (n :: ns) = utf8 n ++ bytesOf ns := by
      simp [bytesOf, List.flatMap_cons]
    rw [hb] at h
    by_cases hn : n.toNat < 128
    · rw [utf8_ascii n hn] at h
      cases qs with
      | nil => exact List.nil_sublist _
      | cons c qs =>
        simp only [List.map_cons, List.singleton_append] at h
        rw [List.sublist_cons_iff] at h
        rcases h with h1 | ⟨r, hr, h1⟩
        · exact (ih (c :: qs) hq (by simpa using h1)).cons n
        · simp only [List.cons.injEq] at hr
          have hcn : c = n := char_eq_of_toNat_eq c n hr.1
          rw [hcn]
          apply List.Sublist.cons₂
          apply ih qs (fun x hx => hq x (List.mem_cons_of_mem _ hx))
          rw [hr.2]; exact h1
    · have hdis : ∀ x ∈ utf8 n, x ∉ qs.map Char.toNat := by
        intro x hx hmem
        have h1 := utf8_high n hn x hx
        obtain ⟨c, hc, hcx⟩ := List.mem_map.mp hmem
        have := hq c hc
        omega
      have := sublist_drop_prefix_of_disjoint (qs.map Char.toNat) (bytesOf ns) (utf8 n) hdis h
      exact (ih qs hq this).cons n

/-- The loop of `fuzzyMatch`, run on a query of ASCII characters, reaches the
end of the query exactly when what is left of the query appears in order in
the name. -/
theorem fuzzy_loop_iff (qs : List Char) : ∀ (ns : List Char) (idx : Nat), idx ≤ qs.length →
    (ns.foldl (fuzzyStep (qs.map Char.toNat)) idx = qs.length ↔ (qs.drop idx).Sublist ns) := by
  intro ns
  induction ns with
  | nil =>
    intro idx hidx
    simp only [List.foldl_nil, List.sublist_nil, List.drop_eq_nil_iff]
    omega
  | cons n ns ih =>
    intro idx hidx
    simp only [List.foldl_cons]
    by_cases hlt : idx < qs.length
    · have hdrop : qs.drop idx = qs[idx] :: qs.drop (idx + 1) := List.drop_eq_getElem_cons hlt
      have hget : (qs.map Char.toNat)[idx]? = some (qs[idx].toNat) := by
        rw [List.getElem?_map, List.getElem?_eq_getElem hlt]; rfl
      by_cases hm : qs[idx] = n
      · have hstep : fuzzyStep (qs.map Char.toNat) idx n = idx + 1 := by
          simp [fuzzyStep, hlt, hget, hm]
        rw [hstep, ih (idx + 1) (by omega), hdrop, hm]
        exact List.cons_sublist_cons.symm
      · have hstep : fuzzyStep (qs.map Char.toNat) idx n = idx := by
          have hne : ¬ qs[idx].toNat = n.toNat := fun h => hm (char_eq_of_toNat_eq _ _ h)
          simp [fuzzyStep, hget, hne]
        rw [hstep, ih idx hidx, hdrop, List.sublist_cons_iff]
        constructor
        · intro h; exact Or.inl h
        · rintro (h | ⟨r, hr, _⟩)
          · exact h
          · simp only [List.cons.injEq] at hr
            exact absurd hr.1 hm
    · have hstep : fuzzyStep (qs.map Char.toNat) idx n = idx := by
        simp [fuzzyStep, hlt]
      have hnil : qs.drop idx = [] := by
        rw [List.drop_eq_nil_iff]; omega
      rw [hstep, ih idx hidx, hnil]
      simp

/-- For a query whose trimmed, lower-cased text is made of ASCII characters,
`fuzzyMatch` returns true exactly when these characters appear in the
lower-cased name in order. -/
theorem fuzzyMatch_ascii_iff (toLower : Char → Char) (query name : String)
    (hascii : ∀ c ∈ (TrimSpace query.data).map toLower, c.toNat < 128) :
    fuzzyMatch toLower query name = true ↔
      ((TrimSpace query.data).map toLower).Sublist (name.data.map toLower) := by
  unfold fuzzyMatch
  simp only
  by_cases hq : (TrimSpace query.data).map toLower = []
  · simp [hq]
  · simp only [hq, if_false]
    rw [bytesOf_ascii _ hascii]
    by_cases hc : Contains (bytesOf (name.data.map toLower))
        (((TrimSpace query.data).map toLower).map Char.toNat) = true
    · simp only [hc, if_true, true_iff]
      exact sublist_of_bytes_sublist _ _ hascii (Contains_sublist _ _ hc)
    · simp only [hc, Bool.false_eq_true, if_false, beq_iff_eq, List.length_map]
      have := fuzzy_loop_iff ((TrimSpace query.data).map toLower) (name.data.map toLower) 0
        (Nat.zero_le _)
      simpa using this

/-- C17 at the failing input.  The query `éb` and the name `éab` are in lower
case and without surrounding white space, and the characters of the query
appear in the name in order; `fuzzyMatch` returns false.  The loop compares
each character of the name with one byte of the query, and `é` is two bytes
long.  The other way round, the query `€` matches a name that does not hold
that character. -/
theorem fuzzyMatch_misses_subsequence :
    (TrimSpace "éb".data).map asciiToLower = "éb".data ∧
    "éab".data.map asciiToLower = "éab".data ∧
    "éb".data.Sublist "éab".data ∧
    fuzzyMatch asciiToLower "éb" "éab" = false ∧
    bytesOf "éb".data = [195, 169, 98] ∧
    ¬ "€".data.Sublist [Char.ofNat 226, Char.ofNat 130, Char.ofNat 172] ∧
    fuzzyMatch asciiToLower "€" (String.mk [Char.ofNat 226, Char.ofNat 130, Char.ofNat 172])
      = true := by
  decide

/-! ### The JSON instance reads back what it writes -/

namespace GoJson

theorem toNat_ofNat_small (n : Nat) (h : n < 55296) : (Char.ofNat n).toNat = n := by
  unfold Char.ofNat
  rw [dif_pos (Or.inl h)]
  rfl

theorem hexVal_hexDigit (d : Nat) (h : d < 16) : hexVal (hexDigit d) = some d := by
  interval_cases d <;> decide

theorem hex4Val_hex4 (n : Nat) (h : n < 65536) (a b c d : Char)
    (he : hex4 n = [a, b, c, d]) : hex4Val a b c d = some n := by
  simp only [hex4, List.cons.injEq, and_true] at he
  obtain ⟨ha, hb, hc, hd⟩ := he
  subst ha hb hc hd
  unfold hex4Val
  rw [hexVal_hexDigit _ (Nat.mod_lt _ (by decide)), hexVal_hexDigit _ (Nat.mod_lt _ (by decide)),
    hexVal_hexDigit _ (Nat.mod_lt _ (by decide)), hexVal_hexDigit _ (Nat.mod_lt _ (by decide))]
  simp only [Option.some.injEq]
  omega

theorem unescape_hex (c : Char) (h : c.toNat < 55296) (R : List Char) :
    unescape ('u' :: (hex4 c.toNat ++ R)) = some (c, R) := by
  have hv := hex4Val_hex4 c.toNat (by omega) _ _ _ _ rfl
  simp only [unescape, hex4, List.cons_append, List.nil_append, if_true, hv]
  have h1 : ¬ (55296 ≤ c.toNat ∧ c.toNat < 56320) := by omega
  have h2 : ¬ (56320 ≤ c.toNat ∧ c.toNat < 57344) := by omega
  simp only [h1, h2, if_false, Char.ofNat_toNat]

theorem parseStrAux_escapeChar (c : Char) (fuel : Nat) (R : List Char) :
    parseStrAux (fuel + 1) (escapeChar c ++ R) =
      (parseStrAux fuel R).map (fun r => (c :: r.1, r.2)) := by
  unfold escapeChar
  split_ifs with h1 h2 h3 h4 h5 h6 h7 h8
  · subst h1; simp [parseStrAux, unescape]
  · subst h2; simp [parseStrAux, unescape]
  · subst h3; simp [parseStrAux, unescape]
  · subst h4; simp [parseStrAux, unescape]
  · subst h5; simp [parseStrAux, unescape]
  · have hc : c = Char.ofNat 8 := by rw [← h6]; exact (Char.ofNat_toNat c).symm
    subst hc; simp [parseStrAux, unescape]
  · have hc : c = Char.ofNat 12 := by rw [← h7]; exact (Char.ofNat_toNat c).symm
    subst hc; simp [parseStrAux, unescape]
  · have hlt : c.toNat < 55296 := by
      rcases h8 with h | h | h | h | h | h
      · omega
      · subst h; decide
      · subst h; decide
      · subst h; decide
      · omega
      · omega
    have hu := unescape_hex c hlt R
    show parseStrAux (fuel + 1) ('\\' :: 'u' :: (hex4 c.toNat ++ R)) = _
    simp only [parseStrAux, hu]
    simp
  · simp only [not_or] at h8
    simp [parseStrAux, h1, h2, h8.1]

theorem parseStrAux_flatMap (cs : List Char) : ∀ (fuel : Nat) (rest : List Char),
    cs.length + 1 ≤ fuel →
    parseStrAux fuel (cs.flatMap escapeChar ++ '"' :: rest) = some (cs, rest) := by
  induction cs with
  | nil =>
    intro fuel rest h
    obtain ⟨f, rfl⟩ : ∃ f, fuel = f + 1 := ⟨fuel - 1, by simp at h; omega⟩
    simp [parseStrAux]
  | cons c cs ih =>
    intro fuel rest h
    obtain ⟨f, rfl⟩ : ∃ f, fuel = f + 1 := ⟨fuel - 1, by simp at h; omega⟩
    rw [List.flatMap_cons, List.append_assoc, parseStrAux_escapeChar,
      ih f rest (by simp at h; omega)]
    rfl

theorem escapeChar_length_pos (c : Char) : 1 ≤ (escapeChar c).length := by
  unfold escapeChar
  split_ifs <;> simp [hex4]

theorem length_le_flatMap_escapeChar (cs : List Char) :
    cs.length ≤ (cs.flatMap escapeChar).length := by
  induction cs with
  | nil => simp
  | cons c cs ih =>
    have := escapeChar_length_pos c
    simp only [List.flatMap_cons, List.length_append, List.length_cons]
    omega

theorem parseStr_quoted (s : String) (rest : List Char) :
    parseStr (s.data.flatMap escapeChar ++ '"' :: rest) = some (s.data, rest) := by
  unfold parseStr
  apply parseStrAux_flatMap
  have := length_le_flatMap_escapeChar s.data
  simp only [List.length_append, List.length_cons]
  omega

theorem digitChar_toNat (k : Nat) (h : k < 10) : (Char.ofNat (48 + k)).toNat = 48 + k :=
  toNat_ofNat_small _ (by omega)

theorem digitsVal_append (ds : List Char) (d : Char) :
    digitsVal (ds ++ [d]) = digitsVal ds * 10 + (d.toNat - 48) := by
  simp [digitsVal, List.foldl_append]

theorem natDigitsAux_spec : ∀ (fuel n : Nat) (acc : List Char), n < fuel →
    ∃ ds, natDigitsAux fuel n acc = ds ++ acc ∧ IsDecimal ds n := by
  intro fuel
  induction fuel with
  | zero => intro n acc h; omega
  | succ fuel ih =>
    intro n acc h
    have hd := digitChar_toNat (n % 10) (Nat.mod_lt _ (by decide))
    by_cases h10 : n < 10
    · refine ⟨[Char.ofNat (48 + n % 10)], by simp [natDigitsAux, h10], by simp, ?_, ?_, ?_⟩
      · intro c hc
        simp only [List.mem_singleton] at hc
        subst hc
        simp only [isDigit, hd, Bool.and_eq_true, decide_eq_true_eq]
        omega
      · simp only [digitsVal, List.foldl_cons, List.foldl_nil, hd]
        omega
      · intro h0
        simp only [List.head?_cons, Option.some.injEq] at h0
        rw [h0]
    · obtain ⟨ds, hds, hne, hall, hval, hhead⟩ := ih (n / 10)
        (Char.ofNat (48 + n % 10) :: acc) (by omega)
      refine ⟨ds ++ [Char.ofNat (48 + n % 10)], ?_, by simp, ?_, ?_, ?_⟩
      · simp only [natDigitsAux, h10, if_false, hds, List.append_assoc, List.singleton_append]
      · intro c hc
        rcases List.mem_append.mp hc with h1 | h1
        · exact hall c h1
        · simp only [List.mem_singleton] at h1
          subst h1
          simp only [isDigit, hd, Bool.and_eq_true, decide_eq_true_eq]
          omega
      · rw [digitsVal_append, hval, hd]
        omega
      · intro h0
        exfalso
        cases ds with
        | nil => exact hne rfl
        | cons c ds =>
          simp only [List.cons_append, List.head?_cons, Option.some.injEq] at h0
          have := hhead (by simp [h0])
          rw [this] at hval
          simp [digitsVal] at hval
          omega

theorem natDigits_spec (n : Nat) : IsDecimal (natDigits n) n := by
  obtain ⟨ds, hds, h⟩ := natDigitsAux_spec (n + 1) n [] (by omega)
  unfold natDigits
  rw [hds, List.append_nil]
  exact h

theorem Delim_head (rest : List Char) (h : Delim rest) (c : Char) (cs : List Char)
    (hr : rest = c :: cs) : c = ',' ∨ c = '\n' := by
  rcases h with h | ⟨cs2, h | h⟩
  · rw [h] at hr; cases hr
  · rw [h] at hr; cases hr; exact Or.inl rfl
  · rw [h] at hr; cases hr; exact Or.inr rfl

theorem spanDigits_append (ds rest : List Char) (hall : ∀ c ∈ ds, isDigit c = true)
    (hrest : Delim rest) : spanDigits (ds ++ rest) = (ds, rest) := by
  induction ds with
  | nil =>
    cases rest with
    | nil => rfl
    | cons c cs =>
      have hc := Delim_head _ hrest c cs rfl
      have : isDigit c = false := by
        rcases hc with h | h <;> (subst h; decide)
      simp [spanDigits, this]
  | cons d ds ih =>
    have hd := hall d (List.mem_cons_self _ _)
    have := ih (fun c hc => hall c (List.mem_cons_of_mem _ hc))
    simp [spanDigits, hd, this]

theorem parseIntPart_decimal (ds rest : List Char) (n : Nat) (h : IsDecimal ds n)
    (hrest : Delim rest) : parseIntPart (ds ++ rest) = some (ds, rest) := by
  obtain ⟨hne, hall, _, hhead⟩ := h
  cases ds with
  | nil => exact absurd rfl hne
  | cons c ds =>
    by_cases h0 : c = '0'
    · have := hhead (by simp [h0])
      simp only [List.cons.injEq] at this
      rw [this.2, h0]
      simp [parseIntPart]
    · have hc := hall c (List.mem_cons_self _ _)
      have hs := spanDigits_append ds rest (fun x hx => hall x (List.mem_cons_of_mem _ hx)) hrest
      simp [parseIntPart, h0, hc, hs]

theorem parseFrac_delim (rest : List Char) (hrest : Delim rest) :
    parseFrac rest = some ([], rest) := by
  cases rest with
  | nil => rfl
  | cons c cs =>
    have hc := Delim_head _ hrest c cs rfl
    have : ¬ c = '.' := by
      rcases hc with h | h <;> (subst h; decide)
    simp [parseFrac, this]

theorem parseExp_delim (rest : List Char) (hrest : Delim rest) :
    parseExp rest = some ([], rest) := by
  cases rest with
  | nil => rfl
  | cons c cs =>
    have hc := Delim_head _ hrest c cs rfl
    have : ¬ (c = 'e' ∨ c = 'E') := by
      rcases hc with h | h <;> (subst h; decide)
    simp [parseExp, this]

theorem isDigit_ne_minus (c : Char) (h : isDigit c = true) : ¬ c = '-' := by
  intro hc; subst hc; exact absurd h (by decide)

theorem parseNum_nat (n : Nat) (rest : List Char) (hrest : Delim rest) :
    parseNum (natDigits n ++ rest) = some (natDigits n, rest) := by
  have hspec := natDigits_spec n
  have hne := hspec.1
  have hall := hspec.2.1
  have hint := parseIntPart_decimal _ rest n hspec hrest
  cases hds : natDigits n with
  | nil => exact absurd hds hne
  | cons c ds =>
    rw [hds] at hint hall
    have hc := isDigit_ne_minus c (hall c (List.mem_cons_self _ _))
    simp only [List.cons_append] at hint
    simp [parseNum, hc, hint, parseFrac_delim rest hrest, parseExp_delim rest hrest]

theorem parseNum_neg (n : Nat) (rest : List Char) (hrest : Delim rest) :
    parseNum ('-' :: (natDigits n ++ rest)) = some ('-' :: natDigits n, rest) := by
  have hint := parseIntPart_decimal _ rest n (natDigits_spec n) hrest
  simp [parseNum, hint, parseFrac_delim rest hrest, parseExp_delim rest hrest]

theorem parseNum_showInt (i : Int) (rest : List Char) (hrest : Delim rest) :
    parseNum (showInt i ++ rest) = some (showInt i, rest) := by
  cases i with
  | ofNat n => exact parseNum_nat n rest hrest
  | negSucc n => exact parseNum_neg (n + 1) rest hrest

theorem intOfLit_showInt (i : Int) (h : InInt64 i) : intOfLit (showInt i) = some i := by
  unfold InInt64 at h
  cases i with
  | ofNat n =>
    have hspec := natDigits_spec n
    have hne := hspec.1
    have hall := hspec.2.1
    have hval := hspec.2.2.1
    simp only [showInt]
    cases hds : natDigits n with
    | nil => exact absurd hds hne
    | cons c ds =>
      rw [hds] at hall hval
      have hc := isDigit_ne_minus c (hall c (List.mem_cons_self _ _))
      have hall2 : (c :: ds).all isDigit = true := List.all_eq_true.mpr hall
      have hneg : ((c :: ds).head? == some '-') = false := by simp [hc]
      simp only [intOfLit, hneg, Bool.false_eq_true, if_false, hall2, List.isEmpty_cons,
        Bool.not_false, Bool.and_self, if_true, hval]
      have h2 : (-9223372036854775808 : Int) ≤ (n : Int) ∧ (n : Int) ≤ 9223372036854775807 := h
      simp only [h2, and_self, if_true]
      rfl
  | negSucc n =>
    have hspec := natDigits_spec (n + 1)
    have hne := hspec.1
    have hall := hspec.2.1
    have hval := hspec.2.2.1
    have hall2 : (natDigits (n + 1)).all isDigit = true := List.all_eq_true.mpr hall
    have hemp : (natDigits (n + 1)).isEmpty = false := by
      cases hds : natDigits (n + 1) with
      | nil => exact absurd hds hne
      | cons c ds => rfl
    simp only [showInt, intOfLit, List.head?_cons, beq_self_eq_true, if_true, List.tail_cons,
      hall2, hemp, Bool.not_false, Bool.and_self, hval]
    have h2 : (-9223372036854775808 : Int) ≤ -((n + 1 : Nat) : Int) ∧
        -((n + 1 : Nat) : Int) ≤ 9223372036854775807 := by
      have := h
      simp only [Int.negSucc_eq] at this
      push_cast
      omega
    simp only [h2, and_self, if_true, Int.negSucc_eq]
    push_cast
    rfl

theorem skipWs_of_not_ws (c : Char) (cs : List Char) (h : isWs c = false) :
    skipWs (c :: cs) = c :: cs := by
  simp [skipWs, h]

theorem Parses_quote (s : String) : Parses (quote s) (JVal.str s) := by
  refine ⟨⟨'"', _, rfl, by decide, by decide, by decide⟩, ?_⟩
  intro fuel rest hfuel _
  obtain ⟨f, rfl⟩ : ∃ f, fuel = f + 1 := ⟨fuel - 1, by simp [quote] at hfuel; omega⟩
  have hp := parseStr_quoted s rest
  simp only [quote, List.cons_append, List.append_assoc, List.singleton_append,
    List.nil_append, parseValue, skipWs_of_not_ws '"' _ (by decide), if_true, hp,
    Option.map_some']

theorem parseValue_num (c : Char) (cs : List Char) (fuel : Nat) (hws : isWs c = false)
    (h1 : c ≠ '"') (h2 : c ≠ '[') (h3 : c ≠ '\x7b') (h4 : c ≠ 'n') (h5 : c ≠ 't')
    (h6 : c ≠ 'f') :
    parseValue (fuel + 1) (c :: cs) =
      (parseNum (c :: cs)).map (fun r => (JVal.num (String.mk r.1), r.2)) := by
  simp only [parseValue, skipWs_of_not_ws c cs hws, h1, h2, h3, h4, h5, h6, if_false]

theorem numStart_facts (c : Char) (h : isDigit c = true ∨ c = '-') :
    isWs c = false ∧ c ≠ '"' ∧ c ≠ '[' ∧ c ≠ '\x7b' ∧ c ≠ 'n' ∧ c ≠ 't' ∧ c ≠ 'f' ∧
      c ≠ ']' ∧ c ≠ '\x7d' := by
  rcases h with h | h
  · have hd : 48 ≤ c.toNat ∧ c.toNat ≤ 57 := by
      simpa [isDigit] using h
    have key : ∀ x : Char, ¬ (48 ≤ x.toNat ∧ x.toNat ≤ 57) → c ≠ x := by
      intro x hx hcx; subst hcx; exact hx hd
    refine ⟨?_, key _ (by decide), key _ (by decide), key _ (by decide), key _ (by decide),
      key _ (by decide), key _ (by decide), key _ (by decide), key _ (by decide)⟩
    have k1 := key ' ' (by decide)
    have k2 := key '\t' (by decide)
    have k3 := key '\n' (by decide)
    have k4 := key '\r' (by decide)
    simp [isWs, k1, k2, k3, k4]
  · subst h
    decide

theorem showInt_head (i : Int) : ∃ c cs, showInt i = c :: cs ∧ (isDigit c = true ∨ c = '-') := by
  cases i with
  | ofNat n =>
    have hspec := natDigits_spec n
    simp only [showInt]
    cases hds : natDigits n with
    | nil => exact absurd hds hspec.1
    | cons c ds =>
      refine ⟨c, ds, rfl, Or.inl ?_⟩
      apply hspec.2.1
      rw [hds]; exact List.mem_cons_self _ _
  | negSucc n => exact ⟨'-', _, rfl, Or.inr rfl⟩

theorem Parses_showInt (i : Int) : Parses (showInt i) (JVal.num (String.mk (showInt i))) := by
  obtain ⟨c, cs, hcs, hc⟩ := showInt_head i
  obtain ⟨hws, h1, h2, h3, h4, h5, h6, h7, h8⟩ := numStart_facts c hc
  refine ⟨⟨c, cs, hcs, hws, h7, h8⟩, ?_⟩
  intro fuel rest hfuel hrest
  obtain ⟨f, rfl⟩ : ∃ f, fuel = f + 1 := ⟨fuel - 1, by rw [hcs] at hfuel; simp at hfuel; omega⟩
  have hp := parseNum_showInt i rest hrest
  rw [hcs] at hp ⊢
  simp only [List.cons_append] at hp ⊢
  rw [parseValue_num c _ f hws h1 h2 h3 h4 h5 h6, hp]
  rfl

theorem skipWs_space (X : List Char) : skipWs (' ' :: X) = skipWs X := by
  have hws : isWs ' ' = true := by decide
  simp only [skipWs, hws, if_true]

theorem skipWs_linefeed (X : List Char) : skipWs ('\n' :: X) = skipWs X := by
  have hws : isWs '\n' = true := by decide
  simp only [skipWs, hws, if_true]

theorem skipWs_spaces (k : Nat) (X : List Char) :
    skipWs (List.replicate k ' ' ++ X) = skipWs X := by
  induction k with
  | zero => rfl
  | succ k ih => rw [List.replicate_succ, List.cons_append, skipWs_space, ih]

theorem skipWs_newline (d : Nat) (X : List Char) : skipWs (newline d ++ X) = skipWs X := by
  show skipWs ('\n' :: (List.replicate (2 * d) ' ' ++ X)) = skipWs X
  rw [skipWs_linefeed, skipWs_spaces]

theorem parseValue_congr (fuel : Nat) (cs cs2 : List Char) (h : skipWs cs = skipWs cs2) :
    parseValue fuel cs = parseValue fuel cs2 := by
  cases fuel with
  | zero => simp only [parseValue]
  | succ f => simp only [parseValue, h]

theorem parseElems_congr (fuel : Nat) (cs cs2 : List Char) (h : skipWs cs = skipWs cs2) :
    parseElems fuel cs = parseElems fuel cs2 := by
  cases fuel with
  | zero => simp only [parseElems]
  | succ f => simp only [parseElems, parseValue_congr f cs cs2 h]

theorem parseMembers_congr (fuel : Nat) (cs cs2 : List Char) (h : skipWs cs = skipWs cs2) :
    parseMembers fuel cs = parseMembers fuel cs2 := by
  cases fuel with
  | zero => simp only [parseMembers]
  | succ f => simp only [parseMembers, h]

theorem Delim_comma (X : List Char) : Delim (',' :: X) := Or.inr ⟨X, Or.inl rfl⟩

theorem Delim_newline (d : Nat) (X : List Char) : Delim (newline d ++ X) :=
  Or.inr ⟨_, Or.inr rfl⟩

theorem Delim_nil : Delim [] := Or.inl rfl

theorem Parses_length_pos (text : List Char) (v : JVal) (h : Parses text v) :
    1 ≤ text.length := by
  obtain ⟨⟨c, cs, hcs, _⟩, _⟩ := h
  rw [hcs]; simp

theorem parseElems_joinLines (d d2 : Nat) (rest : List Char) :
    ∀ (elems : List (List Char × JVal)), elems ≠ [] → (∀ e ∈ elems, Parses e.1 e.2) →
      ∀ fuel, (joinLines d (elems.map Prod.fst)).length + 1 ≤ fuel →
        parseElems fuel (joinLines d (elems.map Prod.fst) ++ (newline d2 ++ ']' :: rest)) =
          some (elems.map Prod.snd, rest) := by
  intro elems
  induction elems with
  | nil => intro h; exact absurd rfl h
  | cons e es ih =>
    intro _ hall fuel hfuel
    have he := hall e (List.mem_cons_self _ _)
    have hlen := Parses_length_pos _ _ he
    obtain ⟨f, rfl⟩ : ∃ f, fuel = f + 1 := ⟨fuel - 1, by omega⟩
    cases es with
    | nil =>
      simp only [List.map_cons, List.map_nil, joinLines] at hfuel ⊢
      have hv := he.2 f (newline d2 ++ ']' :: rest) (by omega) (Delim_newline _ _)
      simp only [parseElems, hv, skipWs_newline, skipWs_of_not_ws ']' rest (by decide)]
      rw [if_neg (by decide : ¬ (']' : Char) = ','), if_pos trivial]
    | cons e2 es =>
      simp only [List.map_cons, joinLines, List.length_append, List.length_cons] at hfuel ⊢
      have hv := he.2 f (',' :: (newline d ++ joinLines d (e2.1 :: es.map Prod.fst) ++
        (newline d2 ++ ']' :: rest))) (by omega) (Delim_comma _)
      have hih := ih (by simp) (fun x hx => hall x (List.mem_cons_of_mem _ hx)) f
        (by simp only [List.map_cons]; omega)
      simp only [List.map_cons] at hih
      have hcongr := parseElems_congr f
        (newline d ++ joinLines d (e2.1 :: es.map Prod.fst) ++ (newline d2 ++ ']' :: rest))
        (joinLines d (e2.1 :: es.map Prod.fst) ++ (newline d2 ++ ']' :: rest))
        (by rw [List.append_assoc, skipWs_newline])
      simp only [List.append_assoc, List.cons_append] at hv hcongr ⊢
      simp only [parseElems, hv, skipWs_of_not_ws ',' _ (by decide), if_true, hcongr]
      rw [hih]
      rfl

theorem joinLines_head (d : Nat) (c : Char) (cs : List Char) (ts : List (List Char)) :
    ∃ tail, joinLines d ((c :: cs) :: ts) = c :: tail := by
  cases ts with
  | nil => exact ⟨cs, rfl⟩
  | cons t ts => exact ⟨_, rfl⟩

theorem Parses_null (d : Nat) :
    Parses (showArray d (Slice.nil : Slice (List Char))) JVal.null := by
  refine ⟨⟨'n', _, rfl, by decide, by decide, by decide⟩, ?_⟩
  intro fuel rest hfuel _
  obtain ⟨f, rfl⟩ : ∃ f, fuel = f + 1 := ⟨fuel - 1, by simp [showArray] at hfuel; omega⟩
  simp [showArray, parseValue, skipWs_of_not_ws 'n' _ (by decide)]

theorem Parses_showArray (d : Nat) (elems : List (List Char × JVal))
    (hall : ∀ e ∈ elems, Parses e.1 e.2) :
    Parses (showArray d (.of (elems.map Prod.fst))) (JVal.arr (elems.map Prod.snd)) := by
  cases elems with
  | nil =>
    refine ⟨⟨'[', _, rfl, by decide, by decide, by decide⟩, ?_⟩
    intro fuel rest hfuel _
    obtain ⟨f, rfl⟩ : ∃ f, fuel = f + 1 := ⟨fuel - 1, by simp [showArray] at hfuel; omega⟩
    simp [showArray, parseValue, skipWs_of_not_ws '[' _ (by decide),
      skipWs_of_not_ws ']' _ (by decide)]
  | cons e es =>
    refine ⟨⟨'[', _, rfl, by decide, by decide, by decide⟩, ?_⟩
    intro fuel rest hfuel _
    have he := hall e (List.mem_cons_self _ _)
    obtain ⟨⟨c, cs, hcs, hws, hc1, _⟩, _⟩ := he
    obtain ⟨tail, htail⟩ := joinLines_head (d + 1) c cs (es.map Prod.fst)
    have hjoin : joinLines (d + 1) ((e :: es).map Prod.fst) = c :: tail := by
      rw [List.map_cons, hcs, htail]
    have hlen : (joinLines (d + 1) ((e :: es).map Prod.fst)).length + 2 ≤ fuel := by
      simp only [showArray, List.map_cons, List.length_cons, List.length_append,
        List.length_nil] at hfuel
      simp only [List.map_cons]
      omega
    obtain ⟨f, rfl⟩ : ∃ f, fuel = f + 1 := ⟨fuel - 1, by omega⟩
    have hp := parseElems_joinLines (d + 1) d rest (e :: es) (by simp) hall f (by omega)
    have hskip : skipWs (newline (d + 1) ++ joinLines (d + 1) ((e :: es).map Prod.fst) ++
        newline d ++ [']'] ++ rest) =
        c :: (tail ++ (newline d ++ ']' :: rest)) := by
      rw [List.append_assoc, List.append_assoc, List.append_assoc, skipWs_newline, hjoin]
      simp only [List.cons_append, List.singleton_append, List.nil_append]
      rw [skipWs_of_not_ws c _ hws]
    rw [hjoin] at hp
    simp only [List.cons_append] at hp
    have hshow : showArray d (.of ((e :: es).map Prod.fst)) ++ rest =
        '[' :: (newline (d + 1) ++ joinLines (d + 1) ((e :: es).map Prod.fst) ++
          newline d ++ [']'] ++ rest) := by
      simp [showArray]
    rw [hshow]
    simp only [parseValue, skipWs_of_not_ws '[' _ (by decide), hskip]
    rw [if_pos trivial, if_neg hc1, hp]
    rfl

theorem parseMembers_member (f : Nat) (k : String) (text : List Char) (v : JVal)
    (R : List Char) (hv : Parses text v) (hlen : text.length ≤ f) (hR : Delim R) :
    parseMembers (f + 1) (quote k ++ (':' :: ' ' :: (text ++ R))) =
      (match skipWs R with
        | [] => none
        | c :: rest4 =>
          if c = ',' then (parseMembers f rest4).map (fun r => ((k, v) :: r.1, r.2))
          else if c = '\x7d' then some ([(k, v)], rest4)
          else none) := by
  have hq : quote k ++ (':' :: ' ' :: (text ++ R)) =
      '"' :: (k.data.flatMap escapeChar ++ '"' :: (':' :: ' ' :: (text ++ R))) := by
    simp [quote]
  have hp := parseStr_quoted k (':' :: ' ' :: (text ++ R))
  have hval : parseValue f (' ' :: (text ++ R)) = some (v, R) := by
    rw [parseValue_congr f (' ' :: (text ++ R)) (text ++ R) (skipWs_space _)]
    exact hv.2 f R hlen hR
  rw [hq]
  simp only [parseMembers, skipWs_of_not_ws '"' _ (by decide), if_true, hp,
    skipWs_of_not_ws ':' _ (by decide), hval]

theorem parseMembers_joinLines (d d2 : Nat) (rest : List Char) :
    ∀ (ms : List (String × List Char × JVal)), ms ≠ [] → (∀ m ∈ ms, Parses m.2.1 m.2.2) →
      ∀ fuel,
        (joinLines d (ms.map (fun m => quote m.1 ++ ':' :: ' ' :: m.2.1))).length + 1 ≤ fuel →
        parseMembers fuel (joinLines d (ms.map (fun m => quote m.1 ++ ':' :: ' ' :: m.2.1)) ++
            (newline d2 ++ '\x7d' :: rest)) =
          some (ms.map (fun m => (m.1, m.2.2)), rest) := by
  intro ms
  induction ms with
  | nil => intro h; exact absurd rfl h
  | cons m ms ih =>
    intro _ hall fuel hfuel
    have hm := hall m (List.mem_cons_self _ _)
    have hlen := Parses_length_pos _ _ hm
    obtain ⟨f, rfl⟩ : ∃ f, fuel = f + 1 := ⟨fuel - 1, by omega⟩
    cases ms with
    | nil =>
      simp only [List.map_cons, List.map_nil, joinLines, List.length_append,
        List.length_cons] at hfuel ⊢
      have hstep := parseMembers_member f m.1 m.2.1 m.2.2 (newline d2 ++ '\x7d' :: rest) hm
        (by omega) (Delim_newline _ _)
      simp only [List.append_assoc, List.cons_append] at hstep ⊢
      rw [hstep, skipWs_newline, skipWs_of_not_ws '\x7d' rest (by decide)]
      simp only
      rfl
    | cons m2 ms =>
      simp only [List.map_cons, joinLines, List.length_append, List.length_cons] at hfuel ⊢
      have hstep := parseMembers_member f m.1 m.2.1 m.2.2
        (',' :: (newline d ++ joinLines d
          ((quote m2.1 ++ ':' :: ' ' :: m2.2.1) ::
            ms.map (fun m => quote m.1 ++ ':' :: ' ' :: m.2.1)) ++
          (newline d2 ++ '\x7d' :: rest))) hm (by omega) (Delim_comma _)
      have hih := ih (by simp) (fun x hx => hall x (List.mem_cons_of_mem _ hx)) f
        (by simp only [List.map_cons, List.length_append, List.length_cons]; omega)
      simp only [List.map_cons] at hih
      have hcongr := parseMembers_congr f
        (newline d ++ joinLines d
          ((quote m2.1 ++ ':' :: ' ' :: m2.2.1) ::
            ms.map (fun m => quote m.1 ++ ':' :: ' ' :: m.2.1)) ++
          (newline d2 ++ '\x7d' :: rest))
        (joinLines d
          ((quote m2.1 ++ ':' :: ' ' :: m2.2.1) ::
            ms.map (fun m => quote m.1 ++ ':' :: ' ' :: m.2.1)) ++
          (newline d2 ++ '\x7d' :: rest))
        (by rw [List.append_assoc, skipWs_newline])
      simp only [List.append_assoc, List.cons_append] at hstep hcongr hih ⊢
      rw [hstep, skipWs_of_not_ws ',' _ (by decide)]
      simp only [if_true, hcongr, hih]
      rfl

theorem Parses_showObject (d : Nat) (ms : List (String × List Char × JVal)) (hne : ms ≠ [])
    (hall : ∀ m ∈ ms, Parses m.2.1 m.2.2) :
    Parses (showObject d (ms.map (fun m => (m.1, m.2.1))))
      (JVal.obj (ms.map (fun m => (m.1, m.2.2)))) := by
  cases ms with
  | nil => exact absurd rfl hne
  | cons m ms =>
    refine ⟨⟨'\x7b', _, rfl, by decide, by decide, by decide⟩, ?_⟩
    intro fuel rest hfuel _
    have hmap : ((m :: ms).map (fun m => (m.1, m.2.1))).map
        (fun kv => quote kv.1 ++ ':' :: ' ' :: kv.2) =
        (m :: ms).map (fun m => quote m.1 ++ ':' :: ' ' :: m.2.1) := by
      rw [List.map_map]; rfl
    have hshow : showObject d ((m :: ms).map (fun m => (m.1, m.2.1))) =
        '\x7b' :: (newline (d + 1) ++
          joinLines (d + 1) ((m :: ms).map (fun m => quote m.1 ++ ':' :: ' ' :: m.2.1)) ++
          newline d ++ ['\x7d']) := by
      rw [← hmap]; rfl
    obtain ⟨tail, htail⟩ := joinLines_head (d + 1) '"'
      (m.1.data.flatMap escapeChar ++ ['"'] ++ ':' :: ' ' :: m.2.1)
      (ms.map (fun m => quote m.1 ++ ':' :: ' ' :: m.2.1))
    have hjoin : joinLines (d + 1) ((m :: ms).map (fun m => quote m.1 ++ ':' :: ' ' :: m.2.1))
        = '"' :: tail := by
      rw [← htail]; simp [quote]
    rw [hshow] at hfuel ⊢
    have hlen : (joinLines (d + 1)
        ((m :: ms).map (fun m => quote m.1 ++ ':' :: ' ' :: m.2.1))).length + 2 ≤ fuel := by
      simp only [List.length_cons, List.length_append, List.length_nil] at hfuel
      omega
    obtain ⟨f, rfl⟩ : ∃ f, fuel = f + 1 := ⟨fuel - 1, by omega⟩
    have hp := parseMembers_joinLines (d + 1) d rest (m :: ms) (by simp) hall f (by omega)
    have hskip : skipWs (newline (d + 1) ++
        joinLines (d + 1) ((m :: ms).map (fun m => quote m.1 ++ ':' :: ' ' :: m.2.1)) ++
        newline d ++ ['\x7d'] ++ rest) =
        '"' :: (tail ++ (newline d ++ '\x7d' :: rest)) := by
      rw [List.append_assoc, List.append_assoc, List.append_assoc, skipWs_newline, hjoin]
      simp only [List.cons_append, List.singleton_append, List.nil_append]
      rw [skipWs_of_not_ws '"' _ (by decide)]
    rw [hjoin] at hp
    simp only [List.cons_append] at hp
    simp only [List.cons_append, parseValue, skipWs_of_not_ws '\x7b' _ (by decide), hskip]
    simp only [if_true, hp]
    rfl

theorem Parses_showSlice {α : Type} (d : Nat) (text : α → List Char) (image : α → JVal)
    (s : Slice α) (h : ∀ x ∈ s.toList, Parses (text x) (image x)) :
    Parses (showArray d (mapSlice text s)) (imageSlice image s) := by
  cases s with
  | nil => exact Parses_null d
  | of xs =>
    have hp := Parses_showArray d (xs.map (fun x => (text x, image x))) (by
      intro e he
      obtain ⟨x, hx, rfl⟩ := List.mem_map.mp he
      exact h x hx)
    simp only [List.map_map] at hp
    exact hp

theorem Parses_showCommit (d : Nat) (c : Commit) : Parses (showCommit d c) (imageCommit c) :=
  Parses_showObject d
    [("device_id", quote c.DeviceID, JVal.str c.DeviceID),
     ("location", quote c.Location, JVal.str c.Location),
     ("delta", showInt c.Delta, imageInt c.Delta),
     ("item_id", showInt c.ItemID, imageInt c.ItemID)] (by simp) (by
    intro m hm
    simp only [List.mem_cons, List.mem_singleton, List.not_mem_nil, or_false] at hm
    rcases hm with rfl | rfl | rfl | rfl
    · exact Parses_quote _
    · exact Parses_quote _
    · exact Parses_showInt _
    · exact Parses_showInt _)

theorem Parses_showItem (d : Nat) (i : Item) : Parses (showItem d i) (imageItem i) :=
  Parses_showObject d
    [("id", showInt i.ID, imageInt i.ID), ("name", quote i.Name, JVal.str i.Name)]
    (by simp) (by
    intro m hm
    simp only [List.mem_cons, List.mem_singleton, List.not_mem_nil, or_false] at hm
    rcases hm with rfl | rfl
    · exact Parses_showInt _
    · exact Parses_quote _)

theorem Parses_showLocation (d : Nat) (l : Location) :
    Parses (showLocation d l) (imageLocation l) :=
  Parses_showObject d
    [("location", quote l.LocationName, JVal.str l.LocationName),
     ("items", showArray (d + 1) (mapSlice showInt l.Items), imageSlice imageInt l.Items)]
    (by simp) (by
    intro m hm
    simp only [List.mem_cons, List.mem_singleton, List.not_mem_nil, or_false] at hm
    rcases hm with rfl | rfl
    · exact Parses_quote _
    · exact Parses_showSlice (d + 1) showInt imageInt l.Items (fun x _ => Parses_showInt x))

theorem Parses_showQueue (v : Slice Commit) : Parses (showQueue v) (imageSlice imageCommit v) :=
  Parses_showSlice 0 (showCommit 1) imageCommit v (fun c _ => Parses_showCommit 1 c)

theorem Parses_showCachedItems (e : CachedItems) :
    Parses (showCachedItems e) (imageCachedItems e) :=
  Parses_showObject 0
    [("timestamp", showInt e.Timestamp, imageInt e.Timestamp),
     ("items", showArray 1 (mapSlice (showItem 2) e.Items), imageSlice imageItem e.Items)]
    (by simp) (by
    intro m hm
    simp only [List.mem_cons, List.mem_singleton, List.not_mem_nil, or_false] at hm
    rcases hm with rfl | rfl
    · exact Parses_showInt _
    · exact Parses_showSlice 1 (showItem 2) imageItem e.Items (fun x _ => Parses_showItem 2 x))

theorem Parses_showCachedLocations (e : CachedLocations) :
    Parses (showCachedLocations e) (imageCachedLocations e) :=
  Parses_showObject 0
    [("timestamp", showInt e.Timestamp, imageInt e.Timestamp),
     ("locations", showArray 1 (mapSlice (showLocation 2) e.Locations),
       imageSlice imageLocation e.Locations)]
    (by simp) (by
    intro m hm
    simp only [List.mem_cons, List.mem_singleton, List.not_mem_nil, or_false] at hm
    rcases hm with rfl | rfl
    · exact Parses_showInt _
    · exact Parses_showSlice 1 (showLocation 2) imageLocation e.Locations
        (fun x _ => Parses_showLocation 2 x))

theorem parseText_of_Parses (text : List Char) (v : JVal) (h : Parses text v) :
    parseText (String.mk text) = some v := by
  have hp := h.2 (2 * text.length + 2) [] (by omega) Delim_nil
  rw [List.append_nil] at hp
  simp [parseText, hp, skipWs]

theorem unmarshal_of_Parses {α : Type} (dec : JVal → α → α × Option Error) (zero : α)
    (text : List Char) (v : JVal) (h : Parses text v) :
    unmarshal dec zero (String.mk text) = dec v zero := by
  simp [unmarshal, parseText_of_Parses text v h]

theorem decodeInt_image (i cur : Int) (h : InInt64 i) : decodeInt (imageInt i) cur = (i, none) := by
  simp [decodeInt, imageInt, intOfLit_showInt i h]

theorem decodeString_str (s cur : String) : decodeString (JVal.str s) cur = (s, none) := rfl

theorem foldl_firstError_none {α : Type} (f : α → Option Error) (xs : List α)
    (h : ∀ x ∈ xs, f x = none) :
    xs.foldl (fun err e => firstError err (f e)) none = none := by
  induction xs with
  | nil => rfl
  | cons x xs ih =>
    simp only [List.foldl_cons, h x (List.mem_cons_self _ _), firstError]
    exact ih (fun y hy => h y (List.mem_cons_of_mem _ hy))

theorem decodeSlice_image {α : Type} (dec : JVal → α → α × Option Error) (zero : α)
    (image : α → JVal) (s cur : Slice α)
    (h : ∀ x ∈ s.toList, dec (image x) zero = (x, none)) :
    decodeSlice dec zero (imageSlice image s) cur = (s, none) := by
  cases s with
  | nil => rfl
  | of xs =>
    simp only [Slice.toList] at h
    have h1 : (xs.map image).map (fun e => (dec e zero).1) = xs := by
      rw [List.map_map]
      conv_rhs => rw [← List.map_id xs]
      apply List.map_congr_left
      intro x hx
      simp [h x hx]
    have h2 : (xs.map image).foldl (fun err e => firstError err (dec e zero).2) none = none := by
      apply foldl_firstError_none (fun e => (dec e zero).2)
      intro e he
      obtain ⟨x, hx, rfl⟩ := List.mem_map.mp he
      simp [h x hx]
    simp only [decodeSlice, imageSlice, h1, h2]

theorem decodeCommit_image (c cur : Commit) (h : c.Fits) :
    decodeStruct commitField (imageCommit c) cur = (c, none) := by
  have k11 : keyIs "device_id" "device_id" = true := by decide
  have k21 : keyIs "location" "device_id" = false := by decide
  have k22 : keyIs "location" "location" = true := by decide
  have k31 : keyIs "delta" "device_id" = false := by decide
  have k32 : keyIs "delta" "location" = false := by decide
  have k33 : keyIs "delta" "delta" = true := by decide
  have k41 : keyIs "item_id" "device_id" = false := by decide
  have k42 : keyIs "item_id" "location" = false := by decide
  have k43 : keyIs "item_id" "delta" = false := by decide
  have k44 : keyIs "item_id" "item_id" = true := by decide
  simp [decodeStruct, imageCommit, commitField, k11, k21, k22, k31, k32, k33, k41, k42, k43,
    k44, decodeString_str, decodeInt_image _ _ h.1, decodeInt_image _ _ h.2, firstError]

theorem decodeItem_image (i cur : Item) (h : i.Fits) :
    decodeStruct itemField (imageItem i) cur = (i, none) := by
  have k11 : keyIs "id" "id" = true := by decide
  have k21 : keyIs "name" "id" = false := by decide
  have k22 : keyIs "name" "name" = true := by decide
  simp [decodeStruct, imageItem, itemField, k11, k21, k22, decodeString_str,
    decodeInt_image _ _ h, firstError]

theorem decodeLocation_image (l cur : Location) (h : l.Fits) :
    decodeStruct locationField (imageLocation l) cur = (l, none) := by
  have k11 : keyIs "location" "location" = true := by decide
  have k21 : keyIs "items" "location" = false := by decide
  have k22 : keyIs "items" "items" = true := by decide
  have hs : ∀ cur2, decodeSlice decodeInt 0 (imageSlice imageInt l.Items) cur2 = (l.Items, none) :=
    fun cur2 => decodeSlice_image decodeInt 0 imageInt l.Items cur2
      (fun x hx => decodeInt_image x 0 (h x hx))
  simp [decodeStruct, imageLocation, locationField, k11, k21, k22, decodeString_str, hs,
    firstError]

theorem decodeCachedItems_image (e cur : CachedItems) (ht : InInt64 e.Timestamp)
    (h : ∀ i ∈ e.Items.toList, i.Fits) :
    decodeStruct cachedItemsField (imageCachedItems e) cur = (e, none) := by
  have k11 : keyIs "timestamp" "timestamp" = true := by decide
  have k21 : keyIs "items" "timestamp" = false := by decide
  have k22 : keyIs "items" "items" = true := by decide
  have hs : ∀ cur2, decodeItems (imageSlice imageItem e.Items) cur2 = (e.Items, none) :=
    fun cur2 => decodeSlice_image (decodeStruct itemField) zeroItem imageItem e.Items cur2
      (fun x hx => decodeItem_image x zeroItem (h x hx))
  simp [decodeStruct, imageCachedItems, cachedItemsField, k11, k21, k22, hs,
    decodeInt_image _ _ ht, firstError]

theorem decodeCachedLocations_image (e cur : CachedLocations) (ht : InInt64 e.Timestamp)
    (h : ∀ l ∈ e.Locations.toList, l.Fits) :
    decodeStruct cachedLocationsField (imageCachedLocations e) cur = (e, none) := by
  have k11 : keyIs "timestamp" "timestamp" = true := by decide
  have k21 : keyIs "locations" "timestamp" = false := by decide
  have k22 : keyIs "locations" "locations" = true := by decide
  have hs : ∀ cur2, decodeLocations (imageSlice imageLocation e.Locations) cur2 =
      (e.Locations, none) :=
    fun cur2 => decodeSlice_image (decodeStruct locationField) zeroLocation imageLocation
      e.Locations cur2 (fun x hx => decodeLocation_image x zeroLocation (h x hx))
  simp [decodeStruct, imageCachedLocations, cachedLocationsField, k11, k21, k22, hs,
    decodeInt_image _ _ ht, firstError]

end GoJson

/-- The JSON instance reads back every queue it writes. -/
theorem goLib_queue_round_trip (v : Slice Commit) (h : ∀ c ∈ v.toList, c.Fits) :
    QueueRoundTrips goLib v := by
  show GoJson.unmarshal GoJson.decodeQueue Slice.nil (String.mk (GoJson.showQueue v)) = (v, none)
  rw [GoJson.unmarshal_of_Parses _ _ _ _ (GoJson.Parses_showQueue v)]
  exact GoJson.decodeSlice_image (GoJson.decodeStruct GoJson.commitField) GoJson.zeroCommit
    GoJson.imageCommit v Slice.nil (fun x hx => GoJson.decodeCommit_image x _ (h x hx))

/-- The JSON instance reads back every items envelope it writes. -/
theorem goLib_items_round_trip (e : CachedItems) (ht : GoJson.InInt64 e.Timestamp)
    (h : ∀ i ∈ e.Items.toList, i.Fits) : ItemsRoundTrips goLib e := by
  refine ⟨rfl, ?_⟩
  show GoJson.unmarshal (GoJson.decodeStruct GoJson.cachedItemsField) _
    (String.mk (GoJson.showCachedItems e)) = (e, none)
  rw [GoJson.unmarshal_of_Parses _ _ _ _ (GoJson.Parses_showCachedItems e)]
  exact GoJson.decodeCachedItems_image e _ ht h

/-- The JSON instance reads back every locations envelope it writes. -/
theorem goLib_locations_round_trip (e : CachedLocations) (ht : GoJson.InInt64 e.Timestamp)
    (h : ∀ l ∈ e.Locations.toList, l.Fits) :
    (goLib.marshalIndentCachedLocations e).2 = none ∧
      goLib.unmarshalCachedLocations (goLib.marshalIndentCachedLocations e).1 = (e, none) := by
  refine ⟨rfl, ?_⟩
  show GoJson.unmarshal (GoJson.decodeStruct GoJson.cachedLocationsField) _
    (String.mk (GoJson.showCachedLocations e)) = (e, none)
  rw [GoJson.unmarshal_of_Parses _ _ _ _ (GoJson.Parses_showCachedLocations e)]
  exact GoJson.decodeCachedLocations_image e _ ht h

/-- C13. Round trip, on the JSON instance: for every slice of commits,
`saveQueue` followed by `loadQueue` returns the same slice, hence the same
commits in the same order, field for field; for every slice of items,
`saveItemsCache` followed by `loadItemsCache` returns the same slice and no
error; and likewise `saveLocationsCache` followed by `loadLocationsCache`, the
item ids of each location included.  Assumed: the files can be written and
read, and the integers, the clock reading among them, fit a Go `int` of 64
bits.  Strings are texts of Unicode characters. -/
theorem save_load_round_trip (E : Env) (q : Queue) (c : Client) (w : World)
    (hq : w.queueFile.writable = true ∧ w.queueFile.readable = true)
    (hi : w.itemsCache.writable = true ∧ w.itemsCache.readable = true)
    (hl : w.locationsCache.writable = true ∧ w.locationsCache.readable = true)
    (ht : GoJson.InInt64 (E.now w.clockReads)) :
    (∀ commits : Slice Commit, (∀ x ∈ commits.toList, x.Fits) →
      loadQueue goLib q (saveQueue goLib q commits w) = commits) ∧
    (∀ items : Slice Item, (∀ x ∈ items.toList, x.Fits) →
      loadItemsCache goLib c (saveItemsCache goLib E c items w).2 = (items, none)) ∧
    (∀ locations : Slice Location, (∀ x ∈ locations.toList, x.Fits) →
      loadLocationsCache goLib c (saveLocationsCache goLib E c locations w).2 =
        (locations, none)) := by
  refine ⟨?_, ?_, ?_⟩
  · intro commits hfit
    have hrt := goLib_queue_round_trip commits hfit
    rw [saveQueue_writable goLib q commits w hq.1]
    have key : ∀ w2 : World,
        w2.queueFile.content = some (goLib.marshalIndentQueue commits).1 →
        w2.queueFile.readable = true → loadQueue goLib q w2 = commits := by
      intro w2 hc2 hr2
      rw [loadQueue_of_content goLib q w2 _ hc2 hr2, hrt]
    exact key _ rfl hq.2
  · intro items hfit
    have hrt := goLib_items_round_trip (CachedItems.mk (E.now w.clockReads) items) ht hfit
    rw [saveItemsCache_writable goLib E c items w hi.1 hrt.1]
    simp only [loadItemsCache, File.read, hi.2, if_true, hrt.2]
  · intro locations hfit
    have hrt := goLib_locations_round_trip (CachedLocations.mk (E.now w.clockReads) locations)
      ht hfit
    have hsave : (saveLocationsCache goLib E c locations w).2.locationsCache =
        { w.locationsCache with content := some (goLib.marshalIndentCachedLocations
          (CachedLocations.mk (E.now w.clockReads) locations)).1 } := by
      simp [saveLocationsCache, nowUnix, goLib, File.write, hl.1]
    simp only [loadLocationsCache, hsave, File.read, hl.2, if_true, hrt.2]

set_option maxRecDepth 100000 in
/-- Witness of C13: three commits, and two locations, one with the item ids
`3, 1, 2` in that order and one with a nil list, come back as they were
saved. -/
theorem save_load_round_trip_witness :
    ((worldEmpty.queueFile.writable = true ∧ worldEmpty.queueFile.readable = true) ∧
      (worldEmpty.itemsCache.writable = true ∧ worldEmpty.itemsCache.readable = true) ∧
      (worldEmpty.locationsCache.writable = true ∧ worldEmpty.locationsCache.readable = true) ∧
      GoJson.InInt64 ((envAnswers 200 "[]").now worldEmpty.clockReads)) ∧
    loadQueue goLib exQueue (saveQueue goLib exQueue (.of [commitA, commitB, commitC])
      worldEmpty) = .of [commitA, commitB, commitC] ∧
    loadLocationsCache goLib exClient (saveLocationsCache goLib (envAnswers 200 "[]") exClient
      (.of [Location.mk "A1" (.of [3, 1, 2]), Location.mk "B7" .nil]) worldEmpty).2 =
      (.of [Location.mk "A1" (.of [3, 1, 2]), Location.mk "B7" .nil], none) := by
  have ht : GoJson.InInt64 ((envAnswers 200 "[]").now worldEmpty.clockReads) := by
    unfold GoJson.InInt64; decide
  have h := save_load_round_trip (envAnswers 200 "[]") exQueue exClient worldEmpty
    ⟨rfl, rfl⟩ ⟨rfl, rfl⟩ ⟨rfl, rfl⟩ ht
  refine ⟨⟨⟨rfl, rfl⟩, ⟨rfl, rfl⟩, ⟨rfl, rfl⟩, ht⟩, ?_, ?_⟩
  · apply h.1
    intro x hx
    simp only [Slice.toList, List.mem_cons, List.mem_singleton, List.not_mem_nil,
      or_false] at hx
    rcases hx with rfl | rfl | rfl <;>
      exact ⟨by unfold GoJson.InInt64; decide, by unfold GoJson.InInt64; decide⟩
  · apply h.2.2
    intro x hx
    simp only [Slice.toList, List.mem_cons, List.mem_singleton, List.not_mem_nil,
      or_false] at hx
    rcases hx with rfl | rfl
    · intro i hi
      simp only [Slice.toList, List.mem_cons, List.mem_singleton, List.not_mem_nil,
        or_false] at hi
      rcases hi with rfl | rfl | rfl <;> (unfold GoJson.InInt64; decide)
    · intro i hi
      simp [Slice.toList] at hi

end WMS
